import Mathlib

/-!
Verification of the guitar-tab reformatter
(`src/organization/organize-guitar-tabs-format.py`).

The program is shallowly embedded over `List Char` (named `Str` below).
Python strings are modelled as ASCII character lists: `str.strip`,
`str.lower`, `str.title`, `str.isdigit` and the regular-expression
character classes are modelled on the ASCII subset, which covers every
character the program treats specially.  Machine floats appear only in
`detect_key`'s comparison `minor/total >= 0.5`, modelled as the exact
rational comparison `total <= 2*minor`.  The single operation of the
program that can raise at runtime (`display_map[unique_id]`) is modelled
with `Option`; everything else is guarded in the source exactly as here.
-/

/-- Characters of a Python string; the whole development works on ASCII lists. -/
abbrev Str := List Char

/-- Shorthand turning a Lean string literal into the modelled type. -/
def str (s : String) : Str := s.data

/-- Python whitespace recognized by `str.strip` (ASCII): space, \t, \n, \r, \v, \f. -/
def isPySpace (c : Char) : Bool :=
  c.toNat == 32 || c.toNat == 9 || c.toNat == 10 || c.toNat == 13 ||
  c.toNat == 11 || c.toNat == 12

/-- ASCII digit, for `str.isdigit` and the regex class `\d`. -/
def isDigitA (c : Char) : Bool := 48 ≤ c.toNat && c.toNat ≤ 57

/-- ASCII letter, for the regex class `[A-Za-z]`. -/
def isAlphaA (c : Char) : Bool :=
  (65 ≤ c.toNat && c.toNat ≤ 90) || (97 ≤ c.toNat && c.toNat ≤ 122)

/-- Regex word character `\w` (ASCII): letters, digits, underscore. -/
def isWordChar (c : Char) : Bool := isAlphaA c || isDigitA c || c.toNat == 95

/-- The regex class `[A-G]` of chord root letters. -/
def isRootLetter (c : Char) : Bool := 65 ≤ c.toNat && c.toNat ≤ 71

/-- ASCII `str.lower`, written as an explicit table so proofs can case on it. -/
def lowerA (c : Char) : Char :=
  match c with
  | 'A' => 'a' | 'B' => 'b' | 'C' => 'c' | 'D' => 'd' | 'E' => 'e'
  | 'F' => 'f' | 'G' => 'g' | 'H' => 'h' | 'I' => 'i' | 'J' => 'j'
  | 'K' => 'k' | 'L' => 'l' | 'M' => 'm' | 'N' => 'n' | 'O' => 'o'
  | 'P' => 'p' | 'Q' => 'q' | 'R' => 'r' | 'S' => 's' | 'T' => 't'
  | 'U' => 'u' | 'V' => 'v' | 'W' => 'w' | 'X' => 'x' | 'Y' => 'y'
  | 'Z' => 'z' | c => c

/-- ASCII `str.upper`, written as an explicit table so proofs can case on it. -/
def upperA (c : Char) : Char :=
  match c with
  | 'a' => 'A' | 'b' => 'B' | 'c' => 'C' | 'd' => 'D' | 'e' => 'E'
  | 'f' => 'F' | 'g' => 'G' | 'h' => 'H' | 'i' => 'I' | 'j' => 'J'
  | 'k' => 'K' | 'l' => 'L' | 'm' => 'M' | 'n' => 'N' | 'o' => 'O'
  | 'p' => 'P' | 'q' => 'Q' | 'r' => 'R' | 's' => 'S' | 't' => 'T'
  | 'u' => 'U' | 'v' => 'V' | 'w' => 'W' | 'x' => 'X' | 'y' => 'Y'
  | 'z' => 'Z' | c => c

/-- `str.lstrip()` on a character list. -/
def lstripL (l : Str) : Str := l.dropWhile isPySpace

/-- `str.rstrip()` on a character list. -/
def rstripL (l : Str) : Str := (l.reverse.dropWhile isPySpace).reverse

/-- `str.strip()` on a character list. -/
def stripL (l : Str) : Str := rstripL (lstripL l)

/-- `str.lstrip("\n")` on a character list. -/
def lstripNlL (l : Str) : Str := l.dropWhile (fun c => c.toNat == 10)

/-- `str.lower()` on a character list (ASCII). -/
def lowerL (l : Str) : Str := l.map lowerA

/-- Python `str.title()` (ASCII): a letter is uppercased when the previous
character is not a letter, lowercased otherwise; the flag tracks whether the
previous character was a letter. -/
def titleAux : Bool → Str → Str
  | _, [] => []
  | prevAlpha, c :: rest =>
    (if isAlphaA c then (if prevAlpha then lowerA c else upperA c) else c)
      :: titleAux (isAlphaA c) rest

/-- `str.title()` on a character list. -/
def titleL (l : Str) : Str := titleAux false l

/-- `"\n".split`-style splitting: `s.split("\n")` on a character list. -/
def splitOnNl : Str → List Str
  | [] => [[]]
  | c :: rest =>
    if c.toNat == 10 then [] :: splitOnNl rest
    else
      match splitOnNl rest with
      | [] => [[c]]
      | g :: gs => (c :: g) :: gs

/-- `"\n".join` on character lists. -/
def joinNl : List Str → Str
  | [] => []
  | [x] => x
  | x :: y :: rest => x ++ '\n' :: joinNl (y :: rest)

/-- Substring test: Python `needle in hay`. -/
def containsSub (hay needle : Str) : Bool :=
  hay.tails.any (fun t => needle.isPrefixOf t)

/-- First occurrence split: Python `s.split(sep, 1)`; `none` when `sep` is absent. -/
def splitOnce (sep : Str) : Str → Option (Str × Str)
  | [] => if sep.isPrefixOf ([] : Str) then some ([], []) else none
  | c :: rest =>
    if sep.isPrefixOf (c :: rest) then some ([], (c :: rest).drop sep.length)
    else
      match splitOnce sep rest with
      | some (a, b) => some (c :: a, b)
      | none => none

/-- Python `file_base.rsplit(".", 1)[0]`: everything before the last dot,
or the whole string when there is no dot. -/
def rsplitDotHead (s : Str) : Str :=
  match s.reverse.dropWhile (fun c => !(c.toNat == 46)) with
  | [] => s
  | _ :: rest => rest.reverse

/-- Python `str(n)` for a natural number: decimal digits.  Fuel-structured so
that the kernel can evaluate it. -/
def digitOf (n : Nat) : Char :=
  match n with
  | 0 => '0' | 1 => '1' | 2 => '2' | 3 => '3' | 4 => '4'
  | 5 => '5' | 6 => '6' | 7 => '7' | 8 => '8' | _ => '9'

def natToStrAux : Nat → Nat → Str
  | 0, _ => []
  | fuel + 1, n =>
    if n < 10 then [digitOf n]
    else natToStrAux fuel (n / 10) ++ [digitOf (n % 10)]

/-- Decimal rendering of a natural number, as Python `str(int)`. -/
def natToStr (n : Nat) : Str := natToStrAux (n + 1) n

/-- Python `int(...)` on a run of ASCII digits. -/
def natOfDigits (l : Str) : Nat :=
  l.foldl (fun acc c => acc * 10 + (c.toNat - 48)) 0

/-- Python string truthiness chain `a or b`. -/
def pyOr (a b : Str) : Str := if a == [] then b else a

/-! ## `CHORD_RE` and `detect_key` (source lines 9–36)

`CHORD_RE` is
`\b(?P<root>[A-G](?:#|b)?)(?P<qual>maj7|maj|min7|m7|m|min|dim|aug|sus2|sus4|add9|6|7|9|11|13|m6|m9|maj9)?(?:/[A-G](?:#|b)?)?\b`.
The matcher below reproduces the backtracking search: at a given position it
tries the greedy root (accidental first), then the quality alternatives in
the pattern's order (then no quality), then the greedy slash-bass options,
and finally checks the closing word boundary; the first combination that
passes wins.  `re.finditer` scans positions left to right and resumes after
each match. -/

/-- The quality alternatives of `CHORD_RE`, in the pattern's order. -/
def qualAlternatives : List Str :=
  [str "maj7", str "maj", str "min7", str "m7", str "m", str "min", str "dim",
   str "aug", str "sus2", str "sus4", str "add9", str "6", str "7", str "9",
   str "11", str "13", str "m6", str "m9", str "maj9"]

/-- Closing `\b`: the previous character is the last consumed one; a position
past the end counts as a non-word character. -/
def boundaryEnd (lastC : Char) (rest : Str) : Bool :=
  match rest with
  | [] => isWordChar lastC
  | c :: _ => isWordChar lastC != isWordChar c

/-- Candidate states `(consumed, lastChar, remainder)` after the optional
slash-bass group, in the regex's backtracking order. -/
def bassCands (st : Nat × Char × Str) : List (Nat × Char × Str) :=
  match st.2.2 with
  | c :: d :: rest2 =>
    if c.toNat == 47 && isRootLetter d then
      match rest2 with
      | e :: rest3 =>
        if e == '#' || e == 'b' then
          [(st.1 + 3, e, rest3), (st.1 + 2, d, rest2), st]
        else [(st.1 + 2, d, rest2), st]
      | [] => [(st.1 + 2, d, []), st]
    else [st]
  | _ => [st]

/-- Candidate states after the optional quality group: matching alternatives
in pattern order, then the empty option. -/
def qualCands (st : Nat × Char × Str) : List (Str × (Nat × Char × Str)) :=
  (qualAlternatives.filterMap fun q =>
    if q.isPrefixOf st.2.2 then
      some (q, (st.1 + q.length, q.getLastD 'x', st.2.2.drop q.length))
    else none) ++ [([], st)]

/-- Attempt to match `CHORD_RE` at the current position.  `prev` is the
character before the position (`none` at the start of the text).  Returns
`(root, qual, lastChar, consumed)` for the first combination accepted by the
backtracking order, with `consumed ≥ 1`. -/
def matchChordAt (prev : Option Char) (l : Str) : Option (Str × Str × Char × Nat) :=
  -- opening \b: the root letter is a word character, so the boundary holds
  -- iff the previous character is absent or not a word character
  let okStart := match prev with | none => true | some p => !isWordChar p
  if !okStart then none
  else
    match l with
    | [] => none
    | c :: rest =>
      if !isRootLetter c then none
      else
        let rootOpts : List (Str × (Nat × Char × Str)) :=
          match rest with
          | d :: rest2 =>
            if d == '#' || d == 'b' then [([c, d], (2, d, rest2)), ([c], (1, c, rest))]
            else [([c], (1, c, rest))]
          | [] => [([c], (1, c, []))]
        rootOpts.findSome? fun ro =>
          (qualCands ro.2).findSome? fun qc =>
            (bassCands qc.2).findSome? fun bc =>
              if boundaryEnd bc.2.1 bc.2.2 then some (ro.1, qc.1, bc.2.1, bc.1)
              else none

/-- `CHORD_RE.finditer`: scan left to right, resuming after each match.
Fuel-structured on the text length so the kernel can evaluate it; a match
always consumes at least one character, so the fuel never runs out. -/
def findChordsAux : Nat → Option Char → Str → List (Str × Str)
  | 0, _, _ => []
  | fuel + 1, prev, l =>
    match l with
    | [] => []
    | c :: rest =>
      match matchChordAt prev (c :: rest) with
      | some (r, q, lc, consumed) =>
        -- resuming at the match end: `(c :: rest).drop consumed` with
        -- `consumed ≥ 1`, written on `rest` to keep the recursion structural
        (r, q) :: findChordsAux fuel (some lc) (rest.drop (consumed - 1))
      | none => findChordsAux fuel (some c) rest

/-- All `(root, qual)` matches of `CHORD_RE` in the text. -/
def chordMatches (body : Str) : List (Str × Str) :=
  findChordsAux body.length none body

/-- `qual.startswith("m") and not qual.startswith("maj")` (source line 21). -/
def isMinorQual (q : Str) : Bool :=
  (str "m").isPrefixOf q && !((str "maj").isPrefixOf q)

/-- One entry of the insertion-ordered `root_counts`/`minor_counts` dicts. -/
structure RootCount where
  root : Str
  total : Nat
  minor : Nat
deriving Repr, DecidableEq

/-- Record one chord match in the counters, preserving dict insertion order. -/
def bumpCounts (acc : List RootCount) (root : Str) (isMin : Bool) : List RootCount :=
  match acc with
  | [] => [⟨root, 1, if isMin then 1 else 0⟩]
  | rc :: rest =>
    if rc.root == root then
      ⟨rc.root, rc.total + 1, rc.minor + (if isMin then 1 else 0)⟩ :: rest
    else rc :: bumpCounts rest root isMin

/-- The counters after scanning the whole match list. -/
def countsOf (ms : List (Str × Str)) : List RootCount :=
  ms.foldl (fun acc m => bumpCounts acc m.1 (isMinorQual m.2)) []

/-- Python `max(root_counts.items(), key=count)`: the first item attaining the
maximal count in iteration (insertion) order. -/
def pickBest : List RootCount → Option RootCount
  | [] => none
  | rc :: rest => some (rest.foldl (fun b x => if x.total > b.total then x else b) rc)

/-- `detect_key` (source lines 14–36).  The float test
`minor_hits / total_hits >= 0.5` is modelled exactly as
`total ≤ 2 * minor`. -/
def detect_key (body : Str) : Str :=
  let counts := countsOf (chordMatches body)
  match pickBest counts with
  | none => []
  | some best =>
    if 0 < best.total && best.total ≤ 2 * best.minor then best.root ++ str "m"
    else best.root

/-! ## Section classification and collapsing (source lines 39–96) -/

/-- The regex `^(.*?)(?:\s+(\d+))?$` of `parse_section_header`: with the lazy
first group, the optional part captures the maximal trailing digit run when it
is preceded by whitespace, and the first group is everything before that
whitespace run.  Returns `(group1, optional number)`. -/
def splitTrailingNumber (name : Str) : Str × Option Nat :=
  let rev := name.reverse
  let digitsRev := rev.takeWhile isDigitA
  let afterDigits := rev.dropWhile isDigitA
  let hasNum := !digitsRev.isEmpty &&
    (match afterDigits with | c :: _ => isPySpace c | [] => false)
  if hasNum then
    ((afterDigits.dropWhile isPySpace).reverse, some (natOfDigits digitsRev.reverse))
  else (name, none)

/-- `parse_section_header` (source lines 39–68): canonical type, abbreviation,
optional explicit number.  (Labels come from single lines, so they contain no
newline.) -/
def parse_section_header (raw : Str) : Str × Str × Option Nat :=
  let name := stripL raw
  let p := splitTrailingNumber name
  let base_part := stripL p.1
  let num := p.2
  let base := stripL ((lowerL base_part).map (fun c => if c == '-' then ' ' else c))
  if containsSub base (str "pre") && containsSub base (str "chorus") then
    (str "Pre-Chorus", str "PC", num)
  else if (str "verse").isPrefixOf base then (str "Verse", str "V", num)
  else if (str "chorus").isPrefixOf base then (str "Chorus", str "C", num)
  else if (str "intro").isPrefixOf base then (str "Intro", str "Intro", num)
  else if (str "outro").isPrefixOf base then (str "Outro", str "Outro", num)
  else if (str "bridge").isPrefixOf base || base == str "b" then
    (str "Bridge", str "B", num)
  else if (str "instrument").isPrefixOf base || (str "instr").isPrefixOf base then
    (str "Instrumental", str "Instr", num)
  else if (str "solo").isPrefixOf base then (str "Solo", str "Solo", num)
  else if (str "tag").isPrefixOf base then (str "Tag", str "Tag", num)
  else if (str "interlude").isPrefixOf base then (str "Interlude", str "Interlude", num)
  else if (str "pre").isPrefixOf base then (str "Pre-Chorus", str "PC", num)
  else
    let clean := titleL base_part
    (clean, clean.filter (fun c => !(c == ' ')), num)

/-- `normalize_content` (source lines 71–72). -/
def normalize_content (content_lines : List Str) : Str :=
  stripL (joinNl content_lines)

/-- `clean_lines` (source lines 75–76). -/
def clean_lines (content_lines : List Str) : List Str :=
  content_lines.map rstripL

/-- `starts_with_lines` (source lines 79–82). -/
def starts_with_lines (candidate : List Str) (pre : List Str) : Bool :=
  pre.isPrefixOf candidate

/-- `extract_repeated_block` (source lines 85–96): the first block size
`1 ≤ size ≤ n/2` dividing `n` whose repetitions make up the whole content;
otherwise the content itself with count 1. -/
def sizeCheck (lines : List Str) (n size : Nat) : Option (List Str × Nat) :=
  if n % size != 0 then none
  else
    let block := lines.take size
    let count := n / size
    if (List.range count).all
        (fun i => (lines.drop (i * size)).take size == block) then
      some (block, count)
    else none

def extract_repeated_block (lines : List Str) : List Str × Nat :=
  let n := lines.length
  if n == 0 then (lines, 1)
  else
    match (List.range' 1 (n / 2)).findSome? (sizeCheck lines n) with
    | some r => r
    | none => (lines, 1)

/-! ## `rebuild_formatted_tab` (source lines 99–316) -/

/-- The fixed metadata field names, in emission order (source line 115). -/
def metaNames : List Str :=
  [str "Key", str "Capo", str "Tempo", str "Time", str "Flow",
   str "Tuning", str "TransposedKey"]

/-- The `meta` dict with its fixed keys, one field per name. -/
structure Meta where
  key : Str
  capo : Str
  tempo : Str
  time : Str
  flow : Str
  tuning : Str
  transposedKey : Str
deriving Repr, DecidableEq

/-- `re.match(rf"^{name}:\s*(.*)$", line)` followed by `.group(1).strip()`
(source lines 120–122): the line must start with `name:`; the group is the
remainder less its leading whitespace, then stripped. -/
def metaLineValue (name : Str) (line : Str) : Option Str :=
  if (name ++ [':']).isPrefixOf line then
    some (stripL ((line.drop (name.length + 1)).dropWhile isPySpace))
  else none

/-- One positional probe of the metadata block (loop of source lines 118–122):
field `name` is read from `lines[offset]` when that line exists and matches. -/
def metaAt (lines : List Str) (offset : Nat) (name : Str) : Str :=
  if offset < lines.length then
    match metaLineValue name (lines.getD offset []) with
    | some v => v
    | none => []
  else []

/-- The parsed metadata block: names at fixed offsets 2–8. -/
def parseMetaBlock (lines : List Str) : Meta :=
  { key := metaAt lines 2 (str "Key")
    capo := metaAt lines 3 (str "Capo")
    tempo := metaAt lines 4 (str "Tempo")
    time := metaAt lines 5 (str "Time")
    flow := metaAt lines 6 (str "Flow")
    tuning := metaAt lines 7 (str "Tuning")
    transposedKey := metaAt lines 8 (str "TransposedKey") }

/-- `header_re = ^([A-Za-z][A-Za-z0-9 \-'\/]+):\s*$` applied to the stripped
line (source lines 140, 150): an initial letter, at least one more character
of the class, a colon, then only whitespace.  Returns the stripped label. -/
def isHeaderClassChar (c : Char) : Bool :=
  isAlphaA c || isDigitA c || c.toNat == 32 || c.toNat == 45 ||
  c.toNat == 39 || c.toNat == 47

def headerLabel? (line : Str) : Option Str :=
  let s := stripL line
  match s with
  | [] => none
  | c :: rest =>
    if isAlphaA c then
      let run := rest.takeWhile isHeaderClassChar
      let rem := rest.dropWhile isHeaderClassChar
      match rem with
      | ':' :: rem2 =>
        if run.isEmpty then none
        else if rem2.all isPySpace then some (stripL (c :: run)) else none
      | _ => none
    else none

/-- A raw section: header label and the lines until the next header. -/
structure RawSection where
  header : Str
  slines : List Str
deriving Repr, DecidableEq

/-- State of the body walk (source lines 142–164). -/
structure SplitState where
  leading : List Str
  done : List RawSection
  cur : Option (Str × List Str)
  found : Nat
deriving Repr, DecidableEq

def splitStep (st : SplitState) (line : Str) : SplitState :=
  match headerLabel? line with
  | some label =>
    { leading := st.leading
      done := st.done ++ (match st.cur with
        | some hc => [⟨hc.1, hc.2⟩]
        | none => [])
      cur := some (label, [])
      found := st.found + 1 }
  | none =>
    match st.cur with
    | none => { st with leading := st.leading ++ [line] }
    | some hc => { st with cur := some (hc.1, hc.2 ++ [line]) }

/-- Result of the body walk: preamble lines, sections, header count. -/
structure SplitRes where
  leading : List Str
  secs : List RawSection
  found : Nat
deriving Repr, DecidableEq

def splitSections (bodyLines : List Str) : SplitRes :=
  let st := bodyLines.foldl splitStep ⟨[], [], none, 0⟩
  { leading := st.leading
    secs := st.done ++ (match st.cur with
      | some hc => [⟨hc.1, hc.2⟩]
      | none => [])
    found := st.found }

/-- One `unique` registry entry of a type (source lines 197–202, 210).  The
source stores identical `lines` and `lines_clean`; a single field suffices. -/
structure UEntry where
  ukey : Str
  ulines : List Str
  extension_of : Option Nat := none
deriving Repr, DecidableEq

/-- Per-type statistics: `{"unique": [...], "prefix": ..., "count": ...}`. -/
structure TypeStat where
  pfx : Str
  count : Nat
  unique : List UEntry
deriving Repr, DecidableEq

/-- One `Occurrence` record (source lines 215–221). -/
structure Occ where
  otype : Str
  opfx : Str
  unique_idx : Nat
  extension : Bool
deriving Repr, DecidableEq

/-- Insertion-ordered dict lookup `type_stats[type_name]`. -/
def lookupStat (ts : List (Str × TypeStat)) (k : Str) : Option TypeStat :=
  (ts.find? (fun p => p.1 == k)).map (fun p => p.2)

/-- Dict write: replace in place when present, append when absent (as
`setdefault` followed by mutation). -/
def statSet (ts : List (Str × TypeStat)) (k : Str) (v : TypeStat) :
    List (Str × TypeStat) :=
  if (ts.find? (fun p => p.1 == k)).isSome then
    ts.map (fun p => if p.1 == k then (k, v) else p)
  else ts ++ [(k, v)]

/-- Inner scan of source lines 191–194: first `jdx` (1-based) whose entry has
`extension_of == baseIdx` and the given key. -/
def findExtIdx : List UEntry → Nat → Nat → Str → Option Nat
  | [], _, _, _ => none
  | u :: rest, jdx, baseIdx, extKey =>
    if u.extension_of == some baseIdx && u.ukey == extKey then some jdx
    else findExtIdx rest (jdx + 1) baseIdx extKey

/-- The matching loop of source lines 179–208, iterating entry by entry:
exact key match first, then (for Chorus) the prefix/extension rule; `none`
when the loop falls through (no match of any kind).  `uniqueAll` is the full
registry list; `rest` is the tail still to scan, `idx` its 1-based position.
Returns `(new registry, match_idx, extension_created)`. -/
def resolveLoop (typeName : Str) (contentClean : List Str) (contentKey : Str)
    (uniqueAll : List UEntry) : Nat → List UEntry →
    Option (List UEntry × Nat × Bool)
  | _, [] => none
  | idx, u :: rest =>
    if u.ukey == contentKey then some (uniqueAll, idx, false)
    else if typeName == str "Chorus" && starts_with_lines contentClean u.ulines then
      let extension_lines := contentClean.drop u.ulines.length
      let extension_key := stripL (joinNl extension_lines)
      if extension_key == [] then some (uniqueAll, idx, false)
      else
        match findExtIdx uniqueAll 1 idx extension_key with
        | some jdx => some (uniqueAll, jdx, false)
        | none =>
          let newList := uniqueAll ++ [⟨extension_key, extension_lines, some idx⟩]
          some (newList, newList.length, true)
    else resolveLoop typeName contentClean contentKey uniqueAll (idx + 1) rest

/-- Everything the body of the section loop (source lines 171–221) decides
about one section, given the registry so far. -/
structure SecOutcome where
  tname : Str
  opfx : Str
  rcount : Nat
  midx : Nat
  ext : Bool
  created : Bool
  newStats : TypeStat
deriving Repr, DecidableEq

def sectionOutcome (ts : List (Str × TypeStat)) (sec : RawSection) : SecOutcome :=
  let parsed := parse_section_header sec.header
  let type_name := parsed.1
  let pfx := parsed.2.1
  let content_clean_raw := clean_lines sec.slines
  let eb := extract_repeated_block content_clean_raw
  let content_clean := eb.1
  let repeat_count := eb.2
  let content_key := stripL (joinNl content_clean)
  let stats0 := match lookupStat ts type_name with
    | some s => s
    | none => ⟨pfx, 0, []⟩ -- setdefault default (source line 177)
  let stats1 : TypeStat := { stats0 with count := stats0.count + repeat_count }
  match resolveLoop type_name content_clean content_key stats1.unique 1 stats1.unique with
  | some (ul, i, ec) =>
    ⟨type_name, pfx, repeat_count, i, ec, ec, { stats1 with unique := ul }⟩
  | none =>
    let ul := stats1.unique ++ [⟨content_key, content_clean, none⟩]
    ⟨type_name, pfx, repeat_count, ul.length, false, true, { stats1 with unique := ul }⟩

/-- Mutable state of the section loop (source lines 167–169). -/
structure BuildState where
  typeStats : List (Str × TypeStat)
  uniqueOrder : List (Str × Nat)
  occurrences : List Occ
deriving Repr, DecidableEq

def processSection (bs : BuildState) (sec : RawSection) : BuildState :=
  let o := sectionOutcome bs.typeStats sec
  { typeStats := statSet bs.typeStats o.tname o.newStats
    uniqueOrder :=
      if o.created && !(bs.uniqueOrder.contains (o.tname, o.midx)) then
        bs.uniqueOrder ++ [(o.tname, o.midx)]
      else bs.uniqueOrder
    occurrences := bs.occurrences ++ List.replicate o.rcount ⟨o.tname, o.opfx, o.midx, o.ext⟩ }

def processSections (secs : List RawSection) : BuildState :=
  secs.foldl processSection ⟨[], [], []⟩

/-- `numbering_types` (source line 223). -/
def numberingTypes : List Str :=
  [str "Verse", str "Pre-Chorus", str "Chorus", str "Bridge"]

/-- `needs_numbering` (source lines 225–227), for a type's statistics. -/
def needs_numbering (type_name : Str) (stats : TypeStat) : Bool :=
  stats.unique.length > 1 || (stats.count > 1 && numberingTypes.contains type_name)

/-- One value of `display_map` (source lines 239–244). -/
structure DisplayEntry where
  display_name : Str
  token : Str
  dlines : List Str
  extension_of : Option Nat
deriving Repr, DecidableEq

/-- The display entry for the `idx`-th unique content of a type (body of the
inner loop, source lines 233–244). -/
def displayEntryFor (type_name : Str) (stats : TypeStat) (idx : Nat) (u : UEntry) :
    DisplayEntry :=
  let number_required := needs_numbering type_name stats
  let number0 : Option Nat := if number_required then some idx else none
  -- the second chance of source lines 235–236 (provably redundant)
  let number : Option Nat :=
    if number0.isNone && stats.count > 1 && numberingTypes.contains type_name then
      some idx
    else number0
  let display_name := match number with
    | some n => type_name ++ [' '] ++ natToStr n
    | none => type_name
  let token := match number with
    | some n => stats.pfx ++ natToStr n
    | none => stats.pfx
  ⟨display_name, token, u.ulines, u.extension_of⟩

/-- The `display_map` entries contributed by one type. -/
def segOf (p : Str × TypeStat) : List ((Str × Nat) × DisplayEntry) :=
  (List.enumFrom 1 p.2.unique).map (fun iu =>
    ((p.1, iu.1), displayEntryFor p.1 p.2 iu.1 iu.2))

/-- `display_map` construction (source lines 229–244), as an association list
keyed by `(type_name, idx)` in dict iteration order. -/
def buildDisplayMap (ts : List (Str × TypeStat)) :
    List ((Str × Nat) × DisplayEntry) :=
  ts.flatMap segOf

/-- `display_map.get(key)` (source line 249). -/
def lookupDisplay (dm : List ((Str × Nat) × DisplayEntry)) (k : Str × Nat) :
    Option DisplayEntry :=
  (dm.find? (fun p => p.1 == k)).map (fun p => p.2)

/-- `tokens_in_flow` (source lines 246–251): `.get` misses are skipped. -/
def flowTokens (dm : List ((Str × Nat) × DisplayEntry)) (occs : List Occ) :
    List Str :=
  occs.filterMap (fun occ => (lookupDisplay dm (occ.otype, occ.unique_idx)).map
    (fun m => m.token))

/-- One rendered section block (source lines 259–267).  The `""` pushed into
`block_parts` is filtered out again by the final generator expression, so a
block is the header line and then the rstripped joined content. -/
def renderBlock (mapping : DisplayEntry) : Str :=
  let section_lines := mapping.dlines
  let header_line := mapping.display_name ++ [':']
  let block_parts := [header_line] ++
    (if !section_lines.isEmpty &&
        (section_lines.length == 0 || !(stripL (section_lines.headD []) == [])) then
      [([] : Str)]
    else []) ++ [rstripL (joinNl section_lines)]
  joinNl (block_parts.filter (fun part => !(part == [])))

/-- The body-block emission over `unique_order` (source lines 259–267);
`display_map[unique_id]` raises on a missing key, modelled by `Option`. -/
def buildBlocks (dm : List ((Str × Nat) × DisplayEntry)) :
    List (Str × Nat) → Option (List Str)
  | [] => some []
  | uid :: rest =>
    match lookupDisplay dm uid with
    | none => none
    | some mapping =>
      match buildBlocks dm rest with
      | none => none
      | some bs => some (renderBlock mapping :: bs)

/-- The leading-preamble block (source lines 253–257). -/
def leadingBlocks (leading_lines : List Str) : List Str :=
  if !leading_lines.isEmpty then
    let leading := rstripL (joinNl leading_lines)
    if !(leading == []) then [leading] else []
  else []

/-- The headerless Flow fallback (source lines 272–305): scan stripped body
lines for `^([A-Za-z ]+):\s*$`, classify ad hoc, join first-seen tokens. -/
def fallbackHeaderName? (line : Str) : Option Str :=
  let s := stripL line
  let run := s.takeWhile (fun c => isAlphaA c || c.toNat == 32)
  let rem := s.dropWhile (fun c => isAlphaA c || c.toNat == 32)
  match rem with
  | ':' :: rem2 =>
    if run.isEmpty then none
    else if rem2.all isPySpace then some (stripL run) else none
  | _ => none

/-- `"".join(ch for ch in name if ch.isdigit()) or "1"` (source line 286). -/
def digitsOr1 (name : Str) : Str :=
  let ds := name.filter isDigitA
  if ds == [] then str "1" else ds

/-- The token classification chain of source lines 282–301. -/
def fallbackToken (name : Str) : Option Str :=
  let low := lowerL name
  if (str "intro").isPrefixOf low then some (str "Intro")
  else if (str "verse").isPrefixOf low then some (str "V" ++ digitsOr1 name)
  else if containsSub low (str "pre") then some (str "PC" ++ digitsOr1 name)
  else if containsSub low (str "chorus") then some (str "C" ++ digitsOr1 name)
  else if containsSub low (str "bridge") || low == str "b" then some (str "B")
  else if containsSub low (str "solo") then some (str "Solo")
  else if containsSub low (str "outro") then some (str "Outro")
  else if containsSub low (str "tag") then some (str "Tag")
  else none

/-- Recording one classified token: `if token and token not in section_tokens`
(source line 302). -/
def fallbackRecord (acc : List Str) (name : Str) : List Str :=
  match fallbackToken name with
  | some token =>
    if !(token == []) && !acc.contains token then acc ++ [token] else acc
  | none => acc

/-- One line of the fallback scan (source lines 276–303). -/
def fallbackStep (acc : List Str) (line : Str) : List Str :=
  if stripL line == [] then acc
  else
    match fallbackHeaderName? line with
    | none => acc
    | some name => fallbackRecord acc name

def fallbackFlowTokens (body : Str) : List Str :=
  (splitOnNl body).foldl fallbackStep []

/-- Everything `rebuild_formatted_tab` computes before looking at section
headers (source lines 100–138): resolved title/artist, defaulted metadata,
and the body text. -/
structure ParsedInput where
  title : Str
  artist : Str
  meta : Meta
  body : Str
deriving Repr, DecidableEq

/-- The file-name fallback `(artist, title)` pair (source lines 102–110). -/
def fileFallback (file_base : Str) : Str × Str :=
  if !(file_base == []) then
    let base_no_ext := rsplitDotHead file_base
    match splitOnce (str " - ") base_no_ext with
    | some ab => (stripL ab.1, stripL ab.2)
    | none => ([], stripL base_no_ext)
  else ([], [])

/-- Where the body begins (source lines 124–127): after the nine header lines,
skipping one further blank line when present. -/
def bodyStart (lines : List Str) : Nat :=
  let body_start0 := 2 + metaNames.length
  if body_start0 < lines.length && stripL (lines.getD body_start0 []) == [] then
    body_start0 + 1
  else body_start0

/-- The title/artist resolution chain (source lines 112–113, 129–130). -/
def resolveName (hdr fb filePart dflt : Str) : Str :=
  pyOr (pyOr (pyOr hdr fb) filePart) dflt

/-- The metadata defaults (source lines 132–138). -/
def applyDefaults (meta0 : Meta) (body : Str) : Meta :=
  let meta1 := if meta0.capo == [] then { meta0 with capo := str "0" } else meta0
  let meta2 := if meta1.tuning == [] then { meta1 with tuning := str "Standard" } else meta1
  if meta2.key == [] then { meta2 with key := detect_key body } else meta2

def parseInput (tab artist_fb title_fb file_base : Str) : ParsedInput :=
  let lines := splitOnNl tab
  let hdr_title := if lines.length > 0 then stripL (lines.getD 0 []) else []
  let hdr_artist := if lines.length > 1 then stripL (lines.getD 1 []) else []
  let body := lstripNlL (joinNl (lines.drop (bodyStart lines)))
  let artist := resolveName hdr_artist artist_fb (fileFallback file_base).1
    (str "Unknown Artist")
  let title := resolveName hdr_title title_fb (fileFallback file_base).2
    (str "Unknown Song")
  ⟨title, artist, applyDefaults (parseMetaBlock lines) body, body⟩

/-- The final pieces assembled into the output (source lines 307–316). -/
structure Rebuilt where
  title : Str
  artist : Str
  meta : Meta
  body : Str
deriving Repr, DecidableEq

def metaValues (m : Meta) : List Str :=
  [m.key, m.capo, m.tempo, m.time, m.flow, m.tuning, m.transposedKey]

/-- `"\n".join(header_lines) + body` with
`header_lines = [title, artist, *fields, "", ""]`. -/
def assembleOut (r : Rebuilt) : Str :=
  joinNl ([r.title, r.artist] ++
    (List.zipWith (fun n v => n ++ str ": " ++ v) metaNames (metaValues r.meta)) ++
    [[], []]) ++ r.body

/-- The whole transformation, producing the output pieces; `none` models the
one possible runtime error (`display_map[unique_id]` on a missing key). -/
def rebuildCore (tab artist_fb title_fb file_base : Str) : Option Rebuilt :=
  let p := parseInput tab artist_fb title_fb file_base
  let sr := splitSections (splitOnNl p.body)
  if sr.found > 0 then
    let bs := processSections sr.secs
    let dm := buildDisplayMap bs.typeStats
    let tokens_in_flow := flowTokens dm bs.occurrences
    match buildBlocks dm bs.uniqueOrder with
    | none => none
    | some blocks =>
      let body_blocks := leadingBlocks sr.leading ++ blocks
      let body :=
        rstripL (List.intercalate (str "\n\n")
          (body_blocks.filter (fun b => !(stripL b == [])))) ++ [ '\n' ]
      let meta' := if !tokens_in_flow.isEmpty then
          { p.meta with flow := List.intercalate (str ", ") tokens_in_flow }
        else p.meta
      some ⟨p.title, p.artist, meta', body⟩
  else
    let meta' :=
      if p.meta.flow == [] then
        let toks := fallbackFlowTokens p.body
        if !toks.isEmpty then { p.meta with flow := List.intercalate [ ' ' ] toks }
        else p.meta
      else p.meta
    some ⟨p.title, p.artist, meta', p.body⟩

/-- `rebuild_formatted_tab` (source lines 99–316) on Lean strings. -/
def rebuild_formatted_tab (tab artist_fb title_fb file_base : String) :
    Option String :=
  (rebuildCore tab.data artist_fb.data title_fb.data file_base.data).map
    (fun r => String.mk (assembleOut r))

/-! ## `main` (source lines 319–331) -/

/-- The environment variables `main` reads; `none` models an unset variable. -/
structure Env where
  tab_content : Option String
  artist_fb : Option String
  title_fb : Option String
  file_base : Option String

/-- Observable outcome of a run: exit status and both output channels. -/
structure RunResult where
  exitCode : Nat
  stdout : String
  stderr : String
deriving Repr, DecidableEq

/-- `main` (named `mainRun` here): `os.environ.get(name, "")` defaults to the empty string; an empty
`TAB_CONTENT` is a usage error; `print` appends a newline.  An uncaught
exception from `rebuild_formatted_tab` would exit nonzero with a traceback on
stderr, modelled by the `none` branch. -/
def mainRun (env : Env) : RunResult :=
  let tab := env.tab_content.getD ""
  let artist_fb := env.artist_fb.getD ""
  let title_fb := env.title_fb.getD ""
  let file_base := env.file_base.getD ""
  if tab == "" then ⟨1, "", "TAB_CONTENT is required\n"⟩
  else
    match rebuild_formatted_tab tab artist_fb title_fb file_base with
    | some rebuilt => ⟨0, rebuilt ++ "\n", ""⟩
    | none => ⟨1, "", "Traceback (most recent call last)\n"⟩

/-! ## Specification-level definitions used by the claim statements -/

/-- A registry reference `(type, 1-based index)` that the display map covers. -/
def uidValid (ts : List (Str × TypeStat)) (uid : Str × Nat) : Prop :=
  ∃ st, lookupStat ts uid.1 = some st ∧ 1 ≤ uid.2 ∧ uid.2 ≤ st.unique.length

/-- Well-formedness of the section-loop state: every occurrence and every
`unique_order` entry points inside its type's registry. -/
def bsValid (bs : BuildState) : Prop :=
  (∀ occ ∈ bs.occurrences, uidValid bs.typeStats (occ.otype, occ.unique_idx)) ∧
  (∀ uid ∈ bs.uniqueOrder, uidValid bs.typeStats uid)

/-- The claim's description of a valid block size for
`extract_repeated_block`: `1 ≤ s ≤ n/2`, `s` divides `n`, and the content is
the first `s` lines repeated `n/s` times. -/
def goodSize (lines : List Str) (s : Nat) : Prop :=
  1 ≤ s ∧ s ≤ lines.length / 2 ∧ lines.length % s = 0 ∧
    lines = (List.replicate (lines.length / s) (lines.take s)).flatten

/-- Number of `CHORD_RE` matches whose root is `r`. -/
def rootTotal (ms : List (Str × Str)) (r : Str) : Nat :=
  (ms.filter (fun m => m.1 == r)).length

/-- Number of minor-quality matches whose root is `r`. -/
def rootMinor (ms : List (Str × Str)) (r : Str) : Nat :=
  (ms.filter (fun m => m.1 == r && isMinorQual m.2)).length

/-- The roots of the matches, in text order. -/
def rootsSeq (ms : List (Str × Str)) : List Str := ms.map (fun m => m.1)

/-- A section's repeat count after collapsing. -/
def repCountOf (sec : RawSection) : Nat :=
  (extract_repeated_block (clean_lines sec.slines)).2

/-- The per-section outcomes of the section loop, in reading order. -/
def outcomesFrom : List (Str × TypeStat) → List RawSection → List SecOutcome
  | _, [] => []
  | ts, s :: ss =>
    let o := sectionOutcome ts s
    o :: outcomesFrom (statSet ts o.tname o.newStats) ss

/-- The occurrence record an outcome contributes (`repeatCount` copies). -/
def occOfOutcome (o : SecOutcome) : Occ := ⟨o.tname, o.opfx, o.midx, o.ext⟩

/-- Total flow-token lookup for a registry reference (defaults to the empty
string, which the coverage lemmas show is never used). -/
def tokenOfUid (ts : List (Str × TypeStat)) (uid : Str × Nat) : Str :=
  ((lookupDisplay (buildDisplayMap ts) uid).map (fun d => d.token)).getD []

/-- The claim's numbering criterion for a canonical type. -/
def needsNumberingSpec (t : Str) (st : TypeStat) : Prop :=
  1 < st.unique.length ∨ (1 < st.count ∧ t ∈ numberingTypes)

/-- Number of section headers the transformation finds in the body of the
given input. -/
def headerCount (tab artist_fb title_fb file_base : Str) : Nat :=
  (splitSections (splitOnNl (parseInput tab artist_fb title_fb file_base).body)).found

/-- No newline character occurs in the string. -/
def noNl (l : Str) : Prop := ∀ c ∈ l, c.toNat ≠ 10

/-- The string equals its own `strip()`. -/
def isStripped (l : Str) : Prop := stripL l = l


/-- Position of the first occurrence of `r` in `l` (the length of `l` when
absent): the "first encountered" order of chord roots. -/
def idxOfStr : List Str → Str → Nat
  | [], _ => 0
  | x :: xs, r => if x = r then 0 else idxOfStr xs r + 1

/-- `b` is the first element of `l` attaining the maximal `total` — what
Python's `max(..., key=...)` returns on a non-empty iteration. -/
def IsFirstMax (l : List RootCount) (b : RootCount) : Prop :=
  ∃ l1 l2, l = l1 ++ b :: l2 ∧ (∀ x ∈ l, x.total ≤ b.total) ∧
    ∀ x ∈ l1, x.total < b.total

/-- Every character of the string is non-whitespace. -/
def allNonWs (l : Str) : Prop := ∀ c ∈ l, isPySpace c = false

/-- The Flow adjustment of the headerless branch (source lines 272–305,
final assembly): when no Flow value was supplied, join the fallback tokens
with single spaces. -/
def flowFix (m : Meta) (body : Str) : Meta :=
  if m.flow == [] then
    let toks := fallbackFlowTokens body
    if !toks.isEmpty then { m with flow := List.intercalate [ ' ' ] toks }
    else m
  else m

/-- The invariants the headerless branch guarantees of its output: title and
artist are non-empty, stripped and single-line; every metadata value is
stripped and single-line; Capo and Tuning are non-empty (they were
defaulted); an empty Key means the body has no detectable key; an empty Flow
means the body yields no fallback tokens; the body is a fixed point of the
leading-newline strip; and the body still contains no section header. -/
def GoodOut (r : Rebuilt) : Prop :=
  r.title ≠ [] ∧ isStripped r.title ∧ noNl r.title ∧
  r.artist ≠ [] ∧ isStripped r.artist ∧ noNl r.artist ∧
  (∀ v ∈ metaValues r.meta, isStripped v ∧ noNl v) ∧
  r.meta.capo ≠ [] ∧ r.meta.tuning ≠ [] ∧
  (r.meta.key = [] → detect_key r.body = []) ∧
  (r.meta.flow = [] → fallbackFlowTokens r.body = []) ∧
  lstripNlL r.body = r.body ∧
  (splitSections (splitOnNl r.body)).found = 0

/-! ## Shared lemmas: dictionary operations and registry coverage -/

theorem find?_mapUpdate (ts : List (Str × TypeStat)) (k : Str) (v : TypeStat)
    (hp : (ts.find? (fun p => p.1 == k)).isSome) :
    (ts.map (fun p => if p.1 == k then (k, v) else p)).find? (fun p => p.1 == k)
      = some (k, v) := by
  induction ts with
  | nil => simp at hp
  | cons p rest ih =>
    by_cases h : p.1 = k
    · rw [List.map_cons, if_pos (beq_iff_eq.mpr h)]
      simp [List.find?_cons]
    · have h' : (p.1 == k) = false := by simp [h]
      rw [List.find?_cons] at hp
      rw [List.map_cons, if_neg (by simp [h'])]
      rw [List.find?_cons]
      simp only [h'] at hp ⊢
      exact ih hp

theorem find?_mapUpdate_ne (ts : List (Str × TypeStat)) (k : Str) (v : TypeStat)
    (k' : Str) (hne : k' ≠ k) :
    (ts.map (fun p => if p.1 == k then (k, v) else p)).find? (fun p => p.1 == k')
      = ts.find? (fun p => p.1 == k') := by
  induction ts with
  | nil => simp
  | cons p rest ih =>
    by_cases h : p.1 = k
    · have h3 : (p.1 == k') = false := by simp [h, Ne.symm hne]
      have h4 : (k == k') = false := by simp [Ne.symm hne]
      rw [List.map_cons, if_pos (beq_iff_eq.mpr h), List.find?_cons, List.find?_cons]
      simp only [h3, h4]
      exact ih
    · rw [List.map_cons, if_neg (by simp [h]), List.find?_cons, List.find?_cons]
      cases hpk : (p.1 == k') with
      | true => simp
      | false => simp only []; exact ih

theorem lookupStat_statSet_self (ts : List (Str × TypeStat)) (k : Str) (v : TypeStat) :
    lookupStat (statSet ts k v) k = some v := by
  unfold statSet lookupStat
  split
  · rename_i hp
    rw [find?_mapUpdate ts k v hp]
    rfl
  · rename_i hp
    rw [List.find?_append]
    have h0 : ts.find? (fun p => p.1 == k) = none := by
      cases h : ts.find? (fun p => p.1 == k) with
      | none => rfl
      | some x => rw [h] at hp; simp at hp
    rw [h0, List.find?_cons]
    simp [List.find?_nil]

theorem lookupStat_statSet_ne (ts : List (Str × TypeStat)) (k : Str) (v : TypeStat)
    (k' : Str) (hne : k' ≠ k) :
    lookupStat (statSet ts k v) k' = lookupStat ts k' := by
  unfold statSet lookupStat
  split
  · rw [find?_mapUpdate_ne ts k v k' hne]
  · rw [List.find?_append, List.find?_cons]
    have h4 : (k == k') = false := by simp [Ne.symm hne]
    simp only [h4, List.find?_nil, Option.or_none]

theorem findExtIdx_bounds :
    ∀ (l : List UEntry) (jdx b : Nat) (key : Str) (j : Nat),
      findExtIdx l jdx b key = some j → jdx ≤ j ∧ j < jdx + l.length := by
  intro l
  induction l with
  | nil => intro jdx b key j h; simp [findExtIdx] at h
  | cons u rest ih =>
    intro jdx b key j h
    unfold findExtIdx at h
    split at h
    · simp only [Option.some.injEq] at h
      subst h
      simp
    · have := ih (jdx + 1) b key j h
      simp only [List.length_cons]
      omega

theorem resolveLoop_spec (tn : Str) (cc : List Str) (ck : Str) (ua : List UEntry) :
    ∀ (rest : List UEntry) (idx : Nat), 1 ≤ idx →
      idx + rest.length = ua.length + 1 →
      ∀ ul i ec, resolveLoop tn cc ck ua idx rest = some (ul, i, ec) →
        (ul = ua ∨ ∃ e, ul = ua ++ [e]) ∧ 1 ≤ i ∧ i ≤ ul.length := by
  intro rest
  induction rest with
  | nil => intro idx _ _ ul i ec h; simp [resolveLoop] at h
  | cons u rest ih =>
    intro idx hidx hlen ul i ec h
    simp only [List.length_cons] at hlen
    unfold resolveLoop at h
    split at h
    · simp only [Option.some.injEq, Prod.mk.injEq] at h
      obtain ⟨h1, h2, h3⟩ := h
      subst h1; subst h2
      exact ⟨Or.inl rfl, hidx, by omega⟩
    · split at h
      · simp only [] at h
        split at h
        · simp only [Option.some.injEq, Prod.mk.injEq] at h
          obtain ⟨h1, h2, h3⟩ := h
          subst h1; subst h2
          exact ⟨Or.inl rfl, hidx, by omega⟩
        · split at h
          · rename_i jdx hext
            simp only [Option.some.injEq, Prod.mk.injEq] at h
            obtain ⟨h1, h2, h3⟩ := h
            subst h1; subst h2
            have := findExtIdx_bounds ua 1 idx _ jdx hext
            exact ⟨Or.inl rfl, by omega, by omega⟩
          · simp only [Option.some.injEq, Prod.mk.injEq] at h
            obtain ⟨h1, h2, h3⟩ := h
            subst h1; subst h2
            refine ⟨Or.inr ⟨_, rfl⟩, ?_, le_refl _⟩
            simp
      · exact ih (idx + 1) (by omega) (by omega) ul i ec h

theorem sectionOutcome_tname (ts : List (Str × TypeStat)) (sec : RawSection) :
    (sectionOutcome ts sec).tname = (parse_section_header sec.header).1 ∧
    (sectionOutcome ts sec).opfx = (parse_section_header sec.header).2.1 ∧
    (sectionOutcome ts sec).rcount = repCountOf sec := by
  unfold sectionOutcome repCountOf
  simp only []
  split <;> simp [clean_lines]

theorem sectionOutcome_midx (ts : List (Str × TypeStat)) (sec : RawSection) :
    1 ≤ (sectionOutcome ts sec).midx ∧
    (sectionOutcome ts sec).midx ≤ (sectionOutcome ts sec).newStats.unique.length := by
  unfold sectionOutcome
  simp only []
  split
  · rename_i ul i ec h
    have := resolveLoop_spec _ _ _ _ _ 1 (le_refl 1) (by omega) ul i ec h
    simpa using this.2
  · simp

theorem sectionOutcome_grows (ts : List (Str × TypeStat)) (sec : RawSection)
    (st : TypeStat)
    (h : lookupStat ts (parse_section_header sec.header).1 = some st) :
    st.unique.length ≤ (sectionOutcome ts sec).newStats.unique.length := by
  unfold sectionOutcome
  simp only [h]
  split
  · rename_i ul i ec hres
    have := resolveLoop_spec _ _ _ _ _ 1 (le_refl 1) (by omega) ul i ec hres
    rcases this.1 with h1 | ⟨e, h1⟩ <;> subst h1 <;> simp
  · simp

theorem uidValid_statSet_preserve (ts : List (Str × TypeStat)) (k : Str)
    (v : TypeStat) (uid : Str × Nat)
    (hgrow : ∀ st, lookupStat ts k = some st → st.unique.length ≤ v.unique.length)
    (h : uidValid ts uid) : uidValid (statSet ts k v) uid := by
  obtain ⟨st, hst, h1, h2⟩ := h
  by_cases hk : uid.1 = k
  · subst hk
    refine ⟨v, lookupStat_statSet_self ts uid.1 v, h1, ?_⟩
    exact le_trans h2 (hgrow st hst)
  · exact ⟨st, by rw [lookupStat_statSet_ne ts k v uid.1 hk]; exact hst, h1, h2⟩

theorem processSection_valid (bs : BuildState) (sec : RawSection)
    (h : bsValid bs) : bsValid (processSection bs sec) := by
  obtain ⟨hocc, huid⟩ := h
  have htn := (sectionOutcome_tname bs.typeStats sec).1
  have hgrow : ∀ st, lookupStat bs.typeStats (sectionOutcome bs.typeStats sec).tname
      = some st →
      st.unique.length ≤ (sectionOutcome bs.typeStats sec).newStats.unique.length := by
    intro st hst
    rw [htn] at hst
    exact sectionOutcome_grows bs.typeStats sec st hst
  have hnew : uidValid (statSet bs.typeStats (sectionOutcome bs.typeStats sec).tname
      (sectionOutcome bs.typeStats sec).newStats)
      ((sectionOutcome bs.typeStats sec).tname, (sectionOutcome bs.typeStats sec).midx) := by
    refine ⟨(sectionOutcome bs.typeStats sec).newStats,
      lookupStat_statSet_self _ _ _, ?_, ?_⟩
    · exact (sectionOutcome_midx bs.typeStats sec).1
    · exact (sectionOutcome_midx bs.typeStats sec).2
  constructor
  · intro occ hmem
    unfold processSection at hmem
    simp only [List.mem_append] at hmem
    rcases hmem with hmem | hmem
    · exact uidValid_statSet_preserve _ _ _ _ hgrow (hocc occ hmem)
    · have := List.eq_of_mem_replicate hmem
      subst this
      exact hnew
  · intro uid hmem
    unfold processSection at hmem
    simp only [] at hmem
    split at hmem
    · simp only [List.mem_append, List.mem_singleton] at hmem
      rcases hmem with hmem | hmem
      · exact uidValid_statSet_preserve _ _ _ _ hgrow (huid uid hmem)
      · subst hmem
        exact hnew
    · exact uidValid_statSet_preserve _ _ _ _ hgrow (huid uid hmem)

theorem processSections_valid_aux :
    ∀ (secs : List RawSection) (bs : BuildState), bsValid bs →
      bsValid (secs.foldl processSection bs) := by
  intro secs
  induction secs with
  | nil => intro bs h; exact h
  | cons s ss ih =>
    intro bs h
    exact ih (processSection bs s) (processSection_valid bs s h)

theorem processSections_valid (secs : List RawSection) :
    bsValid (processSections secs) := by
  unfold processSections
  exact processSections_valid_aux secs ⟨[], [], []⟩ ⟨by simp, by simp⟩

theorem enum_map_find_eq (t : Str) (stats : TypeStat) :
    ∀ (ul : List UEntry) (start i : Nat), start ≤ i → i < start + ul.length →
      ∃ u, ul.get? (i - start) = some u ∧
        ((List.enumFrom start ul).map
            (fun iu => ((t, iu.1), displayEntryFor t stats iu.1 iu.2))).find?
          (fun q => q.1 == ((t, i) : Str × Nat)) =
        some ((t, i), displayEntryFor t stats i u) := by
  intro ul
  induction ul with
  | nil => intro start i h1 h2; simp at h2; omega
  | cons u rest ih =>
    intro start i h1 h2
    rw [List.enumFrom_cons, List.map_cons]
    by_cases h : i = start
    · subst h
      refine ⟨u, by simp, ?_⟩
      rw [List.find?_cons_of_pos _ (by simp)]
    · have h1' : start + 1 ≤ i := by omega
      obtain ⟨w, hw, hfind⟩ := ih (start + 1) i h1' (by simp at h2 ⊢; omega)
      refine ⟨w, ?_, ?_⟩
      · rw [show i - start = (i - (start + 1)) + 1 by omega]
        simpa using hw
      · rw [List.find?_cons_of_neg _ (by simp; omega), hfind]

theorem segOf_find_ne (t0 : Str) (st0 : TypeStat) (t : Str) (i : Nat)
    (hne : t ≠ t0) :
    (segOf (t0, st0)).find? (fun q => q.1 == ((t, i) : Str × Nat)) = none := by
  rw [List.find?_eq_none]
  intro x hx
  unfold segOf at hx
  simp only [List.mem_map] at hx
  obtain ⟨iu, _, hxe⟩ := hx
  subst hxe
  simp [Ne.symm hne]

theorem lookupDisplay_eq (ts : List (Str × TypeStat)) (t : Str) (st : TypeStat)
    (i : Nat) (hst : lookupStat ts t = some st) (h1 : 1 ≤ i)
    (h2 : i ≤ st.unique.length) :
    ∃ u, st.unique.get? (i - 1) = some u ∧
      lookupDisplay (buildDisplayMap ts) (t, i) =
        some (displayEntryFor t st i u) := by
  induction ts with
  | nil => simp [lookupStat] at hst
  | cons p rest ih =>
    obtain ⟨t0, st0⟩ := p
    by_cases h : t0 = t
    · subst h
      unfold lookupStat at hst
      rw [List.find?_cons_of_pos _ (by simp)] at hst
      simp only [Option.map_some', Option.some.injEq] at hst
      subst hst
      obtain ⟨u, hu, hfind⟩ := enum_map_find_eq t0 st0 st0.unique 1 i h1 (by omega)
      refine ⟨u, hu, ?_⟩
      unfold lookupDisplay buildDisplayMap
      rw [List.flatMap_cons, List.find?_append]
      have hseg : (segOf (t0, st0)).find? (fun q => q.1 == ((t0, i) : Str × Nat)) =
          some ((t0, i), displayEntryFor t0 st0 i u) := by
        unfold segOf
        simpa using hfind
      rw [hseg]
      rfl
    · unfold lookupStat at hst
      rw [List.find?_cons_of_neg _ (by simp [h])] at hst
      obtain ⟨u, hu, hfind⟩ := ih hst
      refine ⟨u, hu, ?_⟩
      unfold lookupDisplay buildDisplayMap
      rw [List.flatMap_cons, List.find?_append,
        segOf_find_ne t0 st0 t i (fun hh => h hh.symm)]
      simpa [lookupDisplay, buildDisplayMap] using hfind

theorem lookupDisplay_covers (ts : List (Str × TypeStat)) (uid : Str × Nat)
    (h : uidValid ts uid) : (lookupDisplay (buildDisplayMap ts) uid).isSome := by
  obtain ⟨st, hst, h1, h2⟩ := h
  obtain ⟨u, _, hfind⟩ := lookupDisplay_eq ts uid.1 st uid.2 hst h1 h2
  rw [show ((uid.1, uid.2) : Str × Nat) = uid from rfl] at hfind
  rw [hfind]
  rfl

theorem buildBlocks_isSome (dm : List ((Str × Nat) × DisplayEntry)) :
    ∀ uo : List (Str × Nat), (∀ uid ∈ uo, (lookupDisplay dm uid).isSome) →
      (buildBlocks dm uo).isSome := by
  intro uo
  induction uo with
  | nil => intro _; rfl
  | cons uid rest ih =>
    intro h
    unfold buildBlocks
    cases hl : lookupDisplay dm uid with
    | none => have := h uid (by simp); rw [hl] at this; simp at this
    | some mapping =>
      have := ih (fun u hu => h u (by simp [hu]))
      cases hb : buildBlocks dm rest with
      | none => rw [hb] at this; simp at this
      | some bs => rfl

theorem rebuildCore_isSome (tab artist_fb title_fb file_base : Str) :
    (rebuildCore tab artist_fb title_fb file_base).isSome := by
  unfold rebuildCore
  simp only []
  split
  · split
    · rename_i hnone
      exfalso
      have hv := processSections_valid
        (splitSections (splitOnNl (parseInput tab artist_fb title_fb file_base).body)).secs
      have hs := buildBlocks_isSome _ _
        (fun uid hu => lookupDisplay_covers _ uid (hv.2 uid hu))
      rw [hnone] at hs
      simp at hs
    · rfl
  · rfl

theorem rebuild_formatted_tab_isSome (tab artist_fb title_fb file_base : String) :
    (rebuild_formatted_tab tab artist_fb title_fb file_base).isSome := by
  unfold rebuild_formatted_tab
  have h := rebuildCore_isSome tab.data artist_fb.data title_fb.data file_base.data
  cases hc : rebuildCore tab.data artist_fb.data title_fb.data file_base.data with
  | none => rw [hc] at h; simp at h
  | some r => rfl

/-- C7: for every four input strings (raw tab, artist fallback, title
fallback, file-name stem), `rebuild_formatted_tab` is total: it returns a
string and never raises, whatever the shape of headers, metadata lines,
chord tokens or file names.  The only fallible operation of the source,
`display_map[unique_id]`, is modelled by `Option`; the result is always
`some`. -/
theorem claim_C7 (tab artist_fb title_fb file_base : String) :
    (rebuild_formatted_tab tab artist_fb title_fb file_base).isSome :=
  rebuild_formatted_tab_isSome tab artist_fb title_fb file_base

/-- C10: `main` exits with status 1 and a diagnostic on stderr exactly when
`TAB_CONTENT` is unset or set to the empty string (an empty-but-set value
behaves like a missing one); otherwise it writes the rebuilt tab plus a
newline to stdout and exits with status 0. -/
theorem claim_C10 (env : Env) :
    (((mainRun env).exitCode = 1 ∧ (mainRun env).stderr ≠ "") ↔
      (env.tab_content = none ∨ env.tab_content = some "")) ∧
    ((env.tab_content ≠ none ∧ env.tab_content ≠ some "") →
      (mainRun env).exitCode = 0 ∧ (mainRun env).stderr = "" ∧
      ∃ r, rebuild_formatted_tab (env.tab_content.getD "") (env.artist_fb.getD "")
          (env.title_fb.getD "") (env.file_base.getD "") = some r ∧
        (mainRun env).stdout = r ++ "\n") := by
  obtain ⟨tc, af, tf, fb⟩ := env
  cases tc with
  | none =>
    constructor
    · simp [mainRun]
    · rintro ⟨h, _⟩
      exact absurd rfl h
  | some t =>
    by_cases ht : t = ""
    · subst ht
      constructor
      · simp [mainRun]
      · rintro ⟨_, h⟩
        exact absurd rfl h
    · have hsome := rebuild_formatted_tab_isSome t (af.getD "") (tf.getD "") (fb.getD "")
      cases hr : rebuild_formatted_tab t (af.getD "") (tf.getD "") (fb.getD "") with
      | none => rw [hr] at hsome; simp at hsome
      | some r =>
        have hmain : mainRun ⟨some t, af, tf, fb⟩ = ⟨0, r ++ "\n", ""⟩ := by
          unfold mainRun
          rw [if_neg (by simp [ht])]
          simp only [Option.getD_some]
          rw [hr]
        constructor
        · rw [hmain]
          constructor
          · rintro ⟨h1, _⟩
            simp at h1
          · rintro (h | h)
            · exact absurd h (by simp)
            · simp only [Option.some.injEq] at h
              exact absurd h ht
        · intro _
          rw [hmain]
          exact ⟨rfl, rfl, r, hr, rfl⟩

/-- Witness for C10 at a concrete environment. -/
theorem claim_C10_witness :
    (mainRun ⟨some "T", none, none, none⟩).exitCode = 0 ∧
    (mainRun ⟨some "T", none, none, none⟩).stderr = "" :=
  ⟨((claim_C10 ⟨some "T", none, none, none⟩).2 (by simp)).1,
   ((claim_C10 ⟨some "T", none, none, none⟩).2 (by simp)).2.1⟩

/-! ## Lemmas for `extract_repeated_block` (claim C5) -/

theorem slices_iff_flatten :
    ∀ (count : Nat) (l block : List Str), 0 < block.length →
      l.length = count * block.length →
      ((∀ i < count, (l.drop (i * block.length)).take block.length = block)
        ↔ l = (List.replicate count block).flatten) := by
  intro count
  induction count with
  | zero =>
    intro l block hb hl
    simp only [Nat.zero_mul] at hl
    simp [List.eq_nil_of_length_eq_zero hl]
  | succ k ih =>
    intro l block hb hl
    constructor
    · intro h
      have h0 : l.take block.length = block := by
        have := h 0 (by omega)
        simp at this
        exact this
      have hrest : l.drop block.length = (List.replicate k block).flatten := by
        apply (ih (l.drop block.length) block hb
          (by rw [List.length_drop, hl]; ring_nf; omega)).mp
        intro i hi
        have := h (i + 1) (by omega)
        rw [List.drop_drop]
        rw [show block.length + i * block.length = (i + 1) * block.length by ring]
        exact this
      rw [List.replicate_succ, List.flatten_cons]
      conv_lhs => rw [← List.take_append_drop block.length l]
      rw [h0, hrest]
    · intro h
      intro i hi
      have hr : (List.replicate k block).flatten.length = k * block.length := by
        simp [List.length_flatten, List.map_replicate, List.sum_replicate,
          smul_eq_mul]
      rw [List.replicate_succ, List.flatten_cons] at h
      cases i with
      | zero =>
        rw [h]
        simp
      | succ j =>
        rw [h, show (j + 1) * block.length = block.length + j * block.length by ring,
          List.drop_append]
        exact (ih ((List.replicate k block).flatten) block hb hr).mpr rfl j (by omega)

theorem sizeCheck_some_of_good (lines : List Str) (s : Nat)
    (hg : goodSize lines s) :
    sizeCheck lines lines.length s = some (lines.take s, lines.length / s) := by
  obtain ⟨h1, h2, hdvd, hrep⟩ := hg
  have hsn : s ≤ lines.length := le_trans h2 (Nat.div_le_self _ _)
  have hbl : (lines.take s).length = s := by
    rw [List.length_take]; omega
  have hcnt : lines.length = (lines.length / s) * (lines.take s).length := by
    rw [hbl, Nat.div_mul_cancel (Nat.dvd_of_mod_eq_zero hdvd)]
  have hiff := slices_iff_flatten (lines.length / s) lines (lines.take s)
    (by omega) hcnt
  rw [hbl] at hiff
  have hcheck : (List.range (lines.length / s)).all
      (fun i => (lines.drop (i * s)).take s == lines.take s) = true := by
    rw [List.all_eq_true]
    intro i hi
    rw [beq_iff_eq]
    exact hiff.mpr hrep i (List.mem_range.mp hi)
  unfold sizeCheck
  rw [if_neg (by simp [hdvd])]
  simp only [hcheck, if_true]

theorem sizeCheck_none_of_bad (lines : List Str) (s : Nat) (h1 : 1 ≤ s)
    (h2 : s ≤ lines.length / 2) (hng : ¬ goodSize lines s) :
    sizeCheck lines lines.length s = none := by
  by_cases hdvd : lines.length % s = 0
  · have hsn : s ≤ lines.length := le_trans h2 (Nat.div_le_self _ _)
    have hbl : (lines.take s).length = s := by
      rw [List.length_take]; omega
    have hcnt : lines.length = (lines.length / s) * (lines.take s).length := by
      rw [hbl, Nat.div_mul_cancel (Nat.dvd_of_mod_eq_zero hdvd)]
    have hiff := slices_iff_flatten (lines.length / s) lines (lines.take s)
      (by omega) hcnt
    rw [hbl] at hiff
    have hrep : ¬ lines = (List.replicate (lines.length / s) (lines.take s)).flatten :=
      fun hr => hng ⟨h1, h2, hdvd, hr⟩
    have hcheck : (List.range (lines.length / s)).all
        (fun i => (lines.drop (i * s)).take s == lines.take s) = false := by
      by_contra hc
      have hc' : (List.range (lines.length / s)).all
          (fun i => (lines.drop (i * s)).take s == lines.take s) = true := by
        cases h : (List.range (lines.length / s)).all
            (fun i => (lines.drop (i * s)).take s == lines.take s)
        · exact absurd h hc
        · rfl
      rw [List.all_eq_true] at hc'
      exact hrep (hiff.mp (fun i hi => beq_iff_eq.mp
        (hc' i (List.mem_range.mpr hi))))
    unfold sizeCheck
    rw [if_neg (by simp [hdvd])]
    simp only [hcheck]
    rfl
  · unfold sizeCheck
    rw [if_pos (by simp [hdvd])]

theorem extract_repeated_block_of_min (lines : List Str) (s : Nat)
    (hg : goodSize lines s) (hmin : ∀ t, t < s → ¬ goodSize lines t) :
    extract_repeated_block lines = (lines.take s, lines.length / s) := by
  have h1 := hg.1
  have h2 := hg.2.1
  have hn : lines.length ≠ 0 := by
    intro h0
    rw [h0] at h2
    omega
  unfold extract_repeated_block
  simp only []
  rw [if_neg (by simp [hn])]
  have hsplit : List.range' 1 (lines.length / 2) =
      List.range' 1 (s - 1) ++ s :: List.range' (s + 1) (lines.length / 2 - s) := by
    have happ := List.range'_append 1 (s - 1) (lines.length / 2 - (s - 1)) 1
    have h3 : 1 + 1 * (s - 1) = s := by omega
    have h4 : lines.length / 2 - (s - 1) + (s - 1) = lines.length / 2 := by omega
    rw [h3, h4] at happ
    have h5 : lines.length / 2 - (s - 1) = (lines.length / 2 - s) + 1 := by omega
    rw [h5, List.range'_succ] at happ
    exact happ.symm
  rw [hsplit, List.findSome?_append]
  have hfirst : (List.range' 1 (s - 1)).findSome? (sizeCheck lines lines.length)
      = none := by
    rw [List.findSome?_eq_none_iff]
    intro t ht
    rw [List.mem_range'] at ht
    obtain ⟨i, hi, hti⟩ := ht
    have ht1 : 1 ≤ t := by omega
    have hts : t < s := by omega
    exact sizeCheck_none_of_bad lines t ht1 (by omega) (hmin t hts)
  rw [hfirst]
  rw [List.findSome?_cons]
  rw [sizeCheck_some_of_good lines s hg]
  rfl

theorem extract_repeated_block_of_none (lines : List Str)
    (hng : ∀ s, ¬ goodSize lines s) :
    extract_repeated_block lines = (lines, 1) := by
  unfold extract_repeated_block
  simp only []
  by_cases hn : lines.length = 0
  · rw [if_pos (by simp [hn])]
  · rw [if_neg (by simp [hn])]
    have hnone : (List.range' 1 (lines.length / 2)).findSome?
        (sizeCheck lines lines.length) = none := by
      rw [List.findSome?_eq_none_iff]
      intro t ht
      rw [List.mem_range'] at ht
      obtain ⟨i, hi, hti⟩ := ht
      exact sizeCheck_none_of_bad lines t (by omega) (by omega) (hng t)
    rw [hnone]

/-- C5: `extract_repeated_block` returns `(block, n/s)` for the smallest
block size `s` with `1 ≤ s ≤ n/2`, `s ∣ n` and the lines equal to the first
`s` lines repeated `n/s` times; when no such size exists (in particular for
`n = 0`) it returns `(input, 1)`.  `["E","E","E","E"]` yields `(["E"], 4)`
and `["E","F"]` yields `(["E","F"], 1)`. -/
theorem claim_C5 (lines : List Str) :
    ((∀ s, ¬ goodSize lines s) → extract_repeated_block lines = (lines, 1)) ∧
    (∀ s, goodSize lines s → (∀ t, t < s → ¬ goodSize lines t) →
      extract_repeated_block lines = (lines.take s, lines.length / s)) ∧
    extract_repeated_block ([] : List Str) = ([], 1) ∧
    extract_repeated_block [str "E", str "E", str "E", str "E"] = ([str "E"], 4) ∧
    extract_repeated_block [str "E", str "F"] = ([str "E", str "F"], 1) :=
  ⟨extract_repeated_block_of_none lines,
   fun s hg hmin => extract_repeated_block_of_min lines s hg hmin,
   rfl, by decide, by decide⟩

/-- Witness for C5: the characterization applied at a concrete repeated
block, all hypotheses discharged by computation. -/
theorem claim_C5_witness :
    extract_repeated_block [str "E", str "E", str "E", str "E"] = ([str "E"], 4) :=
  (claim_C5 [str "E", str "E", str "E", str "E"]).2.1 1
    ⟨by decide, by decide, by decide, by decide⟩
    (fun t ht hgs => absurd hgs.1 (by omega))

/-! ## Lemmas for numbering and display names (claims C3, C9) -/

theorem needs_numbering_iff (t : Str) (st : TypeStat) :
    needs_numbering t st = true ↔ needsNumberingSpec t st := by
  unfold needs_numbering needsNumberingSpec
  rw [Bool.or_eq_true, Bool.and_eq_true]
  simp only [decide_eq_true_eq, gt_iff_lt]
  constructor
  · rintro (h | ⟨h1, h2⟩)
    · exact Or.inl h
    · exact Or.inr ⟨h1, List.elem_iff.mp h2⟩
  · rintro (h | ⟨h1, h2⟩)
    · exact Or.inl h
    · exact Or.inr ⟨h1, List.elem_iff.mpr h2⟩

theorem displayEntryFor_eq (t : Str) (st : TypeStat) (i : Nat) (u : UEntry) :
    (needsNumberingSpec t st →
      displayEntryFor t st i u =
        ⟨t ++ [' '] ++ natToStr i, st.pfx ++ natToStr i, u.ulines, u.extension_of⟩) ∧
    (¬ needsNumberingSpec t st →
      displayEntryFor t st i u = ⟨t, st.pfx, u.ulines, u.extension_of⟩) := by
  constructor
  · intro h
    have hb : needs_numbering t st = true := (needs_numbering_iff t st).mpr h
    unfold displayEntryFor
    simp only [hb, if_true, Option.isNone_some, Bool.false_and]
    rfl
  · intro h
    have hb : needs_numbering t st = false := by
      cases hx : needs_numbering t st
      · rfl
      · exact absurd ((needs_numbering_iff t st).mp hx) h
    have hb2 : (st.count > 1 && numberingTypes.contains t) = false := by
      unfold needs_numbering at hb
      rw [Bool.or_eq_false_iff] at hb
      exact hb.2
    unfold displayEntryFor
    simp only [hb, Bool.false_eq_true, if_false, Option.isNone_none,
      Bool.true_and, hb2]

set_option maxRecDepth 10000

/-- C3: a canonical type gets numeric suffixes exactly when it has more than
one unique content or is numbering-eligible with total occurrence count
above 1; numbers follow first-seen registry order (`1, 2, 3, …`), giving
display name `<Type> <n>` and token `<abbrev><n>`, else the bare name and
abbreviation; three identical verses are displayed `Verse 1` with Flow
`V1, V1, V1`. -/
theorem claim_C3 :
    (∀ (ts : List (Str × TypeStat)) (t : Str) (st : TypeStat) (i : Nat),
      lookupStat ts t = some st → 1 ≤ i → i ≤ st.unique.length →
      ∃ u, st.unique.get? (i - 1) = some u ∧
        ((needsNumberingSpec t st →
          lookupDisplay (buildDisplayMap ts) (t, i) =
            some ⟨t ++ [' '] ++ natToStr i, st.pfx ++ natToStr i,
                  u.ulines, u.extension_of⟩) ∧
         (¬ needsNumberingSpec t st →
          lookupDisplay (buildDisplayMap ts) (t, i) =
            some ⟨t, st.pfx, u.ulines, u.extension_of⟩))) ∧
    rebuild_formatted_tab
      "T\nA\nKey: C\nCapo: 0\nTempo: \nTime: \nFlow: \nTuning: Standard\nTransposedKey: \n\nVerse:\nx\nVerse:\nx\nVerse:\nx"
      "" "" "" =
    some "T\nA\nKey: C\nCapo: 0\nTempo: \nTime: \nFlow: V1, V1, V1\nTuning: Standard\nTransposedKey: \n\nVerse 1:\nx\n" := by
  constructor
  · intro ts t st i hst h1 h2
    obtain ⟨u, hu, hfind⟩ := lookupDisplay_eq ts t st i hst h1 h2
    refine ⟨u, hu, ?_, ?_⟩
    · intro h
      rw [hfind, (displayEntryFor_eq t st i u).1 h]
    · intro h
      rw [hfind, (displayEntryFor_eq t st i u).2 h]
  · rfl

/-- Witness for C3: the numbering rule applied to a concrete registry in
which Verse has one unique content occurring three times. -/
theorem claim_C3_witness :
    lookupDisplay (buildDisplayMap
        [(str "Verse", ⟨str "V", 3, [⟨str "x", [str "x"], none⟩]⟩)])
      (str "Verse", 1) =
    some ⟨str "Verse" ++ [' '] ++ natToStr 1, str "V" ++ natToStr 1,
          [str "x"], none⟩ := by
  obtain ⟨u, hu, h⟩ :=
    (claim_C3.1 [(str "Verse", ⟨str "V", 3, [⟨str "x", [str "x"], none⟩]⟩)]
      (str "Verse") ⟨str "V", 3, [⟨str "x", [str "x"], none⟩]⟩ 1
      (by rfl) (by omega) (by decide))
  have hu' : u = ⟨str "x", [str "x"], none⟩ := by
    simp at hu
    exact hu.symm
  rw [h.1 (Or.inr ⟨by decide, by decide⟩), hu']

/-- C9: in the structured path the explicit trailing number of a section
label is discarded: processing a section depends only on the label's
canonical type and abbreviation (never the parsed number), and a lone
section labelled `Verse 2` is emitted as `Verse:` with flow token `V`. -/
theorem claim_C9 :
    (∀ (h1 h2 : Str) (lines : List Str) (bs : BuildState),
      (parse_section_header h1).1 = (parse_section_header h2).1 →
      (parse_section_header h1).2.1 = (parse_section_header h2).2.1 →
      processSection bs ⟨h1, lines⟩ = processSection bs ⟨h2, lines⟩) ∧
    rebuild_formatted_tab
      "T\nA\nKey: C\nCapo: 0\nTempo: \nTime: \nFlow: \nTuning: Standard\nTransposedKey: \n\nVerse 2:\nx"
      "" "" "" =
    some "T\nA\nKey: C\nCapo: 0\nTempo: \nTime: \nFlow: V\nTuning: Standard\nTransposedKey: \n\nVerse:\nx\n" := by
  constructor
  · intro h1 h2 lines bs e1 e2
    have hout : sectionOutcome bs.typeStats ⟨h1, lines⟩ =
        sectionOutcome bs.typeStats ⟨h2, lines⟩ := by
      unfold sectionOutcome
      dsimp only
      rw [e1, e2]
    unfold processSection
    rw [hout]
  · rfl

/-- Witness for C9: two labels differing only in their explicit number
process identically from the empty state. -/
theorem claim_C9_witness :
    processSection ⟨[], [], []⟩ ⟨str "Verse 2", [str "x"]⟩ =
    processSection ⟨[], [], []⟩ ⟨str "Verse 7", [str "x"]⟩ :=
  claim_C9.1 (str "Verse 2") (str "Verse 7") [str "x"] ⟨[], [], []⟩
    (by decide) (by decide)

/-! ## Lemmas for Flow generation (claims C2, C8) -/

theorem extract_repeated_block_pos (lines : List Str) :
    1 ≤ (extract_repeated_block lines).2 := by
  unfold extract_repeated_block
  simp only []
  split
  · exact le_refl 1
  · rename_i hn
    split
    · rename_i r hr
      obtain ⟨size, hmem, hsz⟩ := List.exists_of_findSome?_eq_some hr
      rw [List.mem_range'] at hmem
      obtain ⟨i, hi, hsize⟩ := hmem
      unfold sizeCheck at hsz
      split at hsz
      · exact absurd hsz (by simp)
      · rename_i hdvd
        simp only [] at hsz
        split at hsz
        · simp only [Option.some.injEq] at hsz
          subst hsz
          simp only []
          have hs1 : 1 ≤ size := by omega
          have hs2 : size ≤ lines.length / 2 := by omega
          have hlen : size ≤ lines.length := le_trans hs2 (Nat.div_le_self _ _)
          exact Nat.one_le_div_iff (by omega) |>.mpr hlen
        · exact absurd hsz (by simp)
    · exact le_refl 1

theorem flowTokens_eq_map (ts : List (Str × TypeStat)) (occs : List Occ)
    (h : ∀ occ ∈ occs, uidValid ts (occ.otype, occ.unique_idx)) :
    flowTokens (buildDisplayMap ts) occs =
      occs.map (fun occ => tokenOfUid ts (occ.otype, occ.unique_idx)) := by
  induction occs with
  | nil => rfl
  | cons occ rest ih =>
    have hs := lookupDisplay_covers ts (occ.otype, occ.unique_idx)
      (h occ (by simp))
    unfold flowTokens at ih ⊢
    cases hl : lookupDisplay (buildDisplayMap ts) (occ.otype, occ.unique_idx) with
    | none => rw [hl] at hs; simp at hs
    | some d =>
      rw [List.filterMap_cons, List.map_cons]
      simp only [hl, Option.map_some']
      rw [ih (fun o ho => h o (by simp [ho]))]
      unfold tokenOfUid
      rw [hl]
      rfl

theorem foldl_occurrences (secs : List RawSection) :
    ∀ bs : BuildState, (secs.foldl processSection bs).occurrences =
      bs.occurrences ++ (outcomesFrom bs.typeStats secs).flatMap
        (fun o => List.replicate o.rcount (occOfOutcome o)) := by
  induction secs with
  | nil => intro bs; simp [outcomesFrom]
  | cons s ss ih =>
    intro bs
    rw [List.foldl_cons, ih (processSection bs s)]
    have he : outcomesFrom bs.typeStats (s :: ss) =
        sectionOutcome bs.typeStats s ::
          outcomesFrom (statSet bs.typeStats (sectionOutcome bs.typeStats s).tname
            (sectionOutcome bs.typeStats s).newStats) ss := rfl
    rw [he, List.flatMap_cons]
    unfold processSection occOfOutcome
    simp only []
    rw [List.append_assoc]

theorem outcomesFrom_rcount (secs : List RawSection) :
    ∀ ts, (outcomesFrom ts secs).map (fun o => o.rcount) = secs.map repCountOf := by
  induction secs with
  | nil => intro ts; rfl
  | cons s ss ih =>
    intro ts
    have he : outcomesFrom ts (s :: ss) =
        sectionOutcome ts s ::
          outcomesFrom (statSet ts (sectionOutcome ts s).tname
            (sectionOutcome ts s).newStats) ss := rfl
    rw [he]
    simp only [List.map_cons]
    rw [ih, (sectionOutcome_tname ts s).2.2]

theorem length_flatMap_replicate (os : List SecOutcome) :
    (os.flatMap (fun o => List.replicate o.rcount (occOfOutcome o))).length =
      (os.map (fun o => o.rcount)).sum := by
  induction os with
  | nil => rfl
  | cons o rest ih => simp [List.flatMap_cons, ih]

theorem splitSections_secs_ne (ls : List Str)
    (h : 0 < (splitSections ls).found) : (splitSections ls).secs ≠ [] := by
  have hinv : ∀ (l : List Str) (st : SplitState),
      (st.done ≠ [] ∨ st.cur.isSome ∨ st.found = 0) →
      ((l.foldl splitStep st).done ≠ [] ∨ (l.foldl splitStep st).cur.isSome ∨
        (l.foldl splitStep st).found = 0) := by
    intro l
    induction l with
    | nil => intro st hst; exact hst
    | cons x xs ih =>
      intro st hst
      rw [List.foldl_cons]
      apply ih
      unfold splitStep
      cases hh : headerLabel? x with
      | some label => simp
      | none =>
        cases hc : st.cur with
        | none =>
          simp only []
          rcases hst with h1 | h2 | h3
          · exact Or.inl h1
          · rw [hc] at h2; simp at h2
          · exact Or.inr (Or.inr h3)
        | some hcur =>
          simp only [hc]
          exact Or.inr (Or.inl rfl)
  unfold splitSections at h ⊢
  simp only [] at h ⊢
  have := hinv ls ⟨[], [], none, 0⟩ (Or.inr (Or.inr rfl))
  rcases this with h1 | h2 | h3
  · intro hc
    rcases List.append_eq_nil.mp hc with ⟨hd, _⟩
    exact h1 hd
  · intro hc
    rcases List.append_eq_nil.mp hc with ⟨-, ht⟩
    cases hcur : (ls.foldl splitStep ⟨[], [], none, 0⟩).cur with
    | none => rw [hcur] at h2; simp at h2
    | some v => rw [hcur] at ht; simp at ht
  · omega

theorem processSections_occ_len (secs : List RawSection) :
    (processSections secs).occurrences.length = (secs.map repCountOf).sum := by
  unfold processSections
  rw [foldl_occurrences secs ⟨[], [], []⟩]
  simp only [List.nil_append]
  rw [length_flatMap_replicate, outcomesFrom_rcount]

theorem repCountOf_pos (sec : RawSection) : 1 ≤ repCountOf sec :=
  extract_repeated_block_pos (clean_lines sec.slines)

theorem processSections_occ_ne (secs : List RawSection) (h : secs ≠ []) :
    (processSections secs).occurrences ≠ [] := by
  intro hc
  have hlen := processSections_occ_len secs
  rw [hc] at hlen
  cases secs with
  | nil => exact h rfl
  | cons s ss =>
    simp only [List.map_cons, List.sum_cons, List.length_nil] at hlen
    have := repCountOf_pos s
    omega

theorem rebuildCore_structured_spec (tab artist_fb title_fb file_base : Str)
    (hf : 0 <
      (splitSections (splitOnNl (parseInput tab artist_fb title_fb file_base).body)).found) :
    ∃ r, rebuildCore tab artist_fb title_fb file_base = some r ∧
      r.title = (parseInput tab artist_fb title_fb file_base).title ∧
      r.artist = (parseInput tab artist_fb title_fb file_base).artist ∧
      r.meta = { (parseInput tab artist_fb title_fb file_base).meta with
        flow := List.intercalate (str ", ")
          ((processSections (splitSections (splitOnNl
              (parseInput tab artist_fb title_fb file_base).body)).secs).occurrences.map
            (fun occ => tokenOfUid
              (processSections (splitSections (splitOnNl
                (parseInput tab artist_fb title_fb file_base).body)).secs).typeStats
              (occ.otype, occ.unique_idx))) } := by
  have hv := processSections_valid
    (splitSections (splitOnNl (parseInput tab artist_fb title_fb file_base).body)).secs
  have hocc := processSections_occ_ne
    (splitSections (splitOnNl (parseInput tab artist_fb title_fb file_base).body)).secs
    (splitSections_secs_ne _ hf)
  have htoks := flowTokens_eq_map
    (processSections (splitSections (splitOnNl
      (parseInput tab artist_fb title_fb file_base).body)).secs).typeStats
    (processSections (splitSections (splitOnNl
      (parseInput tab artist_fb title_fb file_base).body)).secs).occurrences
    (fun occ ho => hv.1 occ ho)
  have hbs := buildBlocks_isSome
    (buildDisplayMap (processSections (splitSections (splitOnNl
      (parseInput tab artist_fb title_fb file_base).body)).secs).typeStats)
    (processSections (splitSections (splitOnNl
      (parseInput tab artist_fb title_fb file_base).body)).secs).uniqueOrder
    (fun uid hu => lookupDisplay_covers _ uid (hv.2 uid hu))
  unfold rebuildCore
  simp only []
  rw [if_pos hf]
  cases hb : buildBlocks
      (buildDisplayMap (processSections (splitSections (splitOnNl
        (parseInput tab artist_fb title_fb file_base).body)).secs).typeStats)
      (processSections (splitSections (splitOnNl
        (parseInput tab artist_fb title_fb file_base).body)).secs).uniqueOrder with
  | none => rw [hb] at hbs; simp at hbs
  | some blocks =>
    have hne : (flowTokens
        (buildDisplayMap (processSections (splitSections (splitOnNl
          (parseInput tab artist_fb title_fb file_base).body)).secs).typeStats)
        (processSections (splitSections (splitOnNl
          (parseInput tab artist_fb title_fb file_base).body)).secs).occurrences).isEmpty
        = false := by
      rw [htoks]
      cases hoc : (processSections (splitSections (splitOnNl
          (parseInput tab artist_fb title_fb file_base).body)).secs).occurrences with
      | nil => exact absurd hoc hocc
      | cons a l => simp
    refine ⟨_, rfl, rfl, rfl, ?_⟩
    simp only [hne, Bool.not_false, if_true]
    rw [htoks]

/-- C2: when the body contains at least one section header, the Flow value is
the comma-join of the occurrence token sequence: one token per occurrence,
`repeatCount` consecutive copies per collapsed section in original reading
order, so the token count is the sum of `repeatCount` over all sections. -/
theorem claim_C2 (tab artist_fb title_fb file_base : Str) (sr : SplitRes)
    (bs : BuildState)
    (hsr : sr = splitSections (splitOnNl (parseInput tab artist_fb title_fb file_base).body))
    (hbs : bs = processSections sr.secs)
    (hf : 0 < sr.found) :
    ∃ toks r, rebuildCore tab artist_fb title_fb file_base = some r ∧
      r.meta.flow = List.intercalate (str ", ") toks ∧
      toks = bs.occurrences.map
        (fun occ => tokenOfUid bs.typeStats (occ.otype, occ.unique_idx)) ∧
      bs.occurrences = (outcomesFrom [] sr.secs).flatMap
        (fun o => List.replicate o.rcount (occOfOutcome o)) ∧
      toks.length = (sr.secs.map repCountOf).sum := by
  subst hsr
  subst hbs
  obtain ⟨r, hr, -, -, hmeta⟩ := rebuildCore_structured_spec tab artist_fb title_fb
    file_base hf
  refine ⟨_, r, hr, ?_, rfl, ?_, ?_⟩
  · rw [hmeta]
  · have := foldl_occurrences
      (splitSections (splitOnNl (parseInput tab artist_fb title_fb file_base).body)).secs
      ⟨[], [], []⟩
    unfold processSections
    simpa using this
  · rw [List.length_map]
    exact processSections_occ_len _

/-- Witness for C2 at a concrete two-section input. -/
theorem claim_C2_witness :
    ∃ toks r, rebuildCore
        (str "T\nA\nKey: C\nCapo: 0\nTempo: \nTime: \nFlow: \nTuning: Standard\nTransposedKey: \n\nVerse:\nx\nVerse:\nx")
        [] [] [] = some r ∧
      r.meta.flow = List.intercalate (str ", ") toks ∧
      toks.length = 2 := by
  obtain ⟨toks, r, hr, hflow, -, -, hlen⟩ := claim_C2
    (str "T\nA\nKey: C\nCapo: 0\nTempo: \nTime: \nFlow: \nTuning: Standard\nTransposedKey: \n\nVerse:\nx\nVerse:\nx")
    [] [] [] _ _ rfl rfl (by decide)
  refine ⟨toks, r, hr, hflow, ?_⟩
  rw [hlen]
  decide

/-- C8: with at least one section header, the output Flow field is exactly
the computed occurrence-token sequence — any supplied Flow value is
discarded; with no section headers, a non-empty supplied Flow value survives
to the output unchanged (and so does the body). -/
theorem claim_C8 (tab artist_fb title_fb file_base : Str) :
    (0 < (splitSections (splitOnNl (parseInput tab artist_fb title_fb file_base).body)).found →
      ∃ r, rebuildCore tab artist_fb title_fb file_base = some r ∧
        r.meta.flow = List.intercalate (str ", ")
          ((processSections (splitSections (splitOnNl
              (parseInput tab artist_fb title_fb file_base).body)).secs).occurrences.map
            (fun occ => tokenOfUid
              (processSections (splitSections (splitOnNl
                (parseInput tab artist_fb title_fb file_base).body)).secs).typeStats
              (occ.otype, occ.unique_idx)))) ∧
    ((splitSections (splitOnNl (parseInput tab artist_fb title_fb file_base).body)).found = 0 →
      (parseInput tab artist_fb title_fb file_base).meta.flow ≠ [] →
      rebuildCore tab artist_fb title_fb file_base =
        some ⟨(parseInput tab artist_fb title_fb file_base).title,
              (parseInput tab artist_fb title_fb file_base).artist,
              (parseInput tab artist_fb title_fb file_base).meta,
              (parseInput tab artist_fb title_fb file_base).body⟩) := by
  constructor
  · intro hf
    obtain ⟨r, hr, -, -, hmeta⟩ := rebuildCore_structured_spec tab artist_fb title_fb
      file_base hf
    exact ⟨r, hr, by rw [hmeta]⟩
  · intro hf hflow
    unfold rebuildCore
    simp only []
    rw [if_neg (by omega)]
    rw [if_neg (by simpa using hflow)]

/-- Witness for C8: a structured input whose supplied Flow is replaced, and a
headerless input whose supplied Flow survives. -/
theorem claim_C8_witness :
    (∃ r, rebuildCore
        (str "T\nA\nKey: C\nCapo: 0\nTempo: \nTime: \nFlow: X9, Y9\nTuning: Standard\nTransposedKey: \n\nVerse:\nx")
        [] [] [] = some r ∧
      r.meta.flow = List.intercalate (str ", ")
        ((processSections (splitSections (splitOnNl
            (parseInput (str "T\nA\nKey: C\nCapo: 0\nTempo: \nTime: \nFlow: X9, Y9\nTuning: Standard\nTransposedKey: \n\nVerse:\nx")
              [] [] []).body)).secs).occurrences.map
          (fun occ => tokenOfUid
            (processSections (splitSections (splitOnNl
              (parseInput (str "T\nA\nKey: C\nCapo: 0\nTempo: \nTime: \nFlow: X9, Y9\nTuning: Standard\nTransposedKey: \n\nVerse:\nx")
                [] [] []).body)).secs).typeStats
            (occ.otype, occ.unique_idx)))) ∧
    rebuildCore (str "T\nA\nKey: C\nCapo: 0\nTempo: \nTime: \nFlow: V9\nTuning: Standard\nTransposedKey: \n\njust lyrics")
        [] [] [] =
      some ⟨(parseInput (str "T\nA\nKey: C\nCapo: 0\nTempo: \nTime: \nFlow: V9\nTuning: Standard\nTransposedKey: \n\njust lyrics") [] [] []).title,
            (parseInput (str "T\nA\nKey: C\nCapo: 0\nTempo: \nTime: \nFlow: V9\nTuning: Standard\nTransposedKey: \n\njust lyrics") [] [] []).artist,
            (parseInput (str "T\nA\nKey: C\nCapo: 0\nTempo: \nTime: \nFlow: V9\nTuning: Standard\nTransposedKey: \n\njust lyrics") [] [] []).meta,
            (parseInput (str "T\nA\nKey: C\nCapo: 0\nTempo: \nTime: \nFlow: V9\nTuning: Standard\nTransposedKey: \n\njust lyrics") [] [] []).body⟩ :=
  ⟨(claim_C8 (str "T\nA\nKey: C\nCapo: 0\nTempo: \nTime: \nFlow: X9, Y9\nTuning: Standard\nTransposedKey: \n\nVerse:\nx")
      [] [] []).1 (by decide),
   (claim_C8 (str "T\nA\nKey: C\nCapo: 0\nTempo: \nTime: \nFlow: V9\nTuning: Standard\nTransposedKey: \n\njust lyrics")
      [] [] []).2 (by decide) (by decide)⟩

/-! ## Claim C4: the chorus extension rule -/

/-- Walking the matching loop past entries that fail both the exact-key and
the prefix test: the first prefix-matching entry (with no exact key match at
or before it) decides the outcome, through the extension branch. -/
theorem resolveLoop_skip (cc : List Str) (ck : Str) (ua : List UEntry) :
    ∀ (rest : List UEntry) (p idx : Nat) (u : UEntry),
      1 ≤ idx →
      rest.get? p = some u →
      starts_with_lines cc u.ulines = true →
      u.ukey ≠ ck →
      (∀ q uq, q < p → rest.get? q = some uq →
        starts_with_lines cc uq.ulines = false ∧ uq.ukey ≠ ck) →
      resolveLoop (str "Chorus") cc ck ua idx rest =
        (let extension_lines := cc.drop u.ulines.length
         let extension_key := stripL (joinNl extension_lines)
         let newList := ua ++ [(⟨extension_key, extension_lines, some (idx + p)⟩ : UEntry)]
         if extension_key = [] then some (ua, idx + p, false)
         else
           match findExtIdx ua 1 (idx + p) extension_key with
           | some jdx => some (ua, jdx, false)
           | none => some (newList, newList.length, true)) := by
  intro rest
  induction rest with
  | nil => intro p idx u _ hget; simp at hget
  | cons u0 rest ih =>
    intro p idx u hidx hget hpref hkey hbefore
    cases p with
    | zero =>
      simp only [List.get?_cons_zero, Option.some.injEq] at hget
      subst hget
      unfold resolveLoop
      rw [if_neg (by simp [hkey])]
      rw [if_pos (by simp [hpref])]
      simp only [Nat.add_zero]
      by_cases hek : stripL (joinNl (cc.drop u0.ulines.length)) = []
      · rw [if_pos (by simp [hek]), if_pos hek]
      · rw [if_neg (by simp [hek]), if_neg hek]
    | succ q =>
      simp only [List.get?_cons_succ] at hget
      have h0 := hbefore 0 u0 (by omega) (by simp)
      unfold resolveLoop
      rw [if_neg (by simp [h0.2])]
      rw [if_neg (by simp [h0.1])]
      rw [ih q (idx + 1) u (by omega) hget hpref hkey
        (fun q' uq hq' hgq' => hbefore (q' + 1) uq (by omega) (by simpa using hgq'))]
      have harith : idx + 1 + q = idx + (q + 1) := by omega
      rw [harith]

/-- C4 (amended): for a Chorus section whose collapsed content starts with
the lines of an earlier unique entry `u` — `u` the first prefix-matching
entry in registry order — *provided no entry at or before `u`'s position has
key equal to the section's normalized content*: an empty-normalizing suffix
reuses `u`'s index; otherwise the suffix alone becomes a distinct entry
tagged `extensionOf = u` (an existing entry with the same suffix key and the
same `extensionOf` is reused), and every section contributes its own
`repeatCount` occurrences to the Flow sequence. -/
theorem claim_C4_amended :
    (∀ (contentClean : List Str) (uniqueAll : List UEntry) (p : Nat) (u : UEntry),
      uniqueAll.get? p = some u →
      starts_with_lines contentClean u.ulines = true →
      (∀ q uq, q < p → uniqueAll.get? q = some uq →
        starts_with_lines contentClean uq.ulines = false) →
      (∀ q uq, q ≤ p → uniqueAll.get? q = some uq →
        uq.ukey ≠ normalize_content contentClean) →
      resolveLoop (str "Chorus") contentClean (normalize_content contentClean)
          uniqueAll 1 uniqueAll =
        (let extension_lines := contentClean.drop u.ulines.length
         let extension_key := stripL (joinNl extension_lines)
         let newList := uniqueAll ++
           [(⟨extension_key, extension_lines, some (p + 1)⟩ : UEntry)]
         if extension_key = [] then some (uniqueAll, p + 1, false)
         else
           match findExtIdx uniqueAll 1 (p + 1) extension_key with
           | some jdx => some (uniqueAll, jdx, false)
           | none => some (newList, newList.length, true))) ∧
    (∀ (bs : BuildState) (sec : RawSection),
      (processSection bs sec).occurrences.length =
        bs.occurrences.length + repCountOf sec) := by
  constructor
  · intro contentClean uniqueAll p u hget hpref hfirst hnokey
    have h := resolveLoop_skip contentClean (normalize_content contentClean)
      uniqueAll uniqueAll p 1 u (le_refl 1) hget hpref
      (hnokey p u (le_refl p) hget)
      (fun q uq hq hgq => ⟨hfirst q uq hq hgq, hnokey q uq (by omega) hgq⟩)
    rw [h]
    have harith : 1 + p = p + 1 := by omega
    rw [harith]
  · intro bs sec
    unfold processSection
    simp only [List.length_append, List.length_replicate]
    rw [(sectionOutcome_tname bs.typeStats sec).2.2]

/-- Witness for the amended C4: a one-entry chorus registry and a content
that extends it by one line, producing the extension entry. -/
theorem claim_C4_amended_witness :
    resolveLoop (str "Chorus") [str "a", str "b"]
        (normalize_content [str "a", str "b"])
        [⟨str "a", [str "a"], none⟩] 1 [⟨str "a", [str "a"], none⟩] =
      some ([⟨str "a", [str "a"], none⟩, ⟨str "b", [str "b"], some 1⟩], 2, true) := by
  have h := claim_C4_amended.1 [str "a", str "b"] [⟨str "a", [str "a"], none⟩] 0
    ⟨str "a", [str "a"], none⟩ (by decide) (by decide)
    (fun q uq hq hgq => by omega)
    (fun q uq hq hgq => by
      interval_cases q
      · simp at hgq
        rw [← hgq]
        decide)
  rw [h]
  decide

/-- C4 is refuted on the code as stated: in the concrete input below the
third chorus section's collapsed content `["x", "", "y"]` prefix-matches the
second registry entry `["x"]` (and not the first), with a suffix normalizing
to the non-empty `"y"`, so the claim requires a new `extensionOf`-tagged
entry and a third occurrence pointing at it; but the exact-key test against
the *first* entry (key `"x\n\ny"`) fires earlier in the loop, so the
section reuses index 1 and no extension entry is created. -/
theorem claim_C4_counterexample :
    (splitSections (splitOnNl (parseInput
        (str "T\nA\nKey: C\nCapo: 0\nTempo: \nTime: \nFlow: \nTuning: Standard\nTransposedKey: \n\nChorus:\n\nx\n\ny\nChorus:\nx\nChorus:\nx\n\ny")
        [] [] []).body)).secs =
      [⟨str "Chorus", [[], str "x", [], str "y"]⟩,
       ⟨str "Chorus", [str "x"]⟩,
       ⟨str "Chorus", [str "x", [], str "y"]⟩] ∧
    extract_repeated_block (clean_lines [str "x", [], str "y"]) =
      ([str "x", [], str "y"], 1) ∧
    starts_with_lines [str "x", [], str "y"] [str "x"] = true ∧
    starts_with_lines [str "x", [], str "y"] [[], str "x", [], str "y"] = false ∧
    normalize_content (List.drop 1 [str "x", [], str "y"]) = str "y" ∧
    (processSections (splitSections (splitOnNl (parseInput
        (str "T\nA\nKey: C\nCapo: 0\nTempo: \nTime: \nFlow: \nTuning: Standard\nTransposedKey: \n\nChorus:\n\nx\n\ny\nChorus:\nx\nChorus:\nx\n\ny")
        [] [] []).body)).secs).typeStats =
      [(str "Chorus",
        ⟨str "C", 3,
         [⟨str "x\n\ny", [[], str "x", [], str "y"], none⟩,
          ⟨str "x", [str "x"], none⟩]⟩)] ∧
    (processSections (splitSections (splitOnNl (parseInput
        (str "T\nA\nKey: C\nCapo: 0\nTempo: \nTime: \nFlow: \nTuning: Standard\nTransposedKey: \n\nChorus:\n\nx\n\ny\nChorus:\nx\nChorus:\nx\n\ny")
        [] [] []).body)).secs).occurrences =
      [⟨str "Chorus", str "C", 1, false⟩,
       ⟨str "Chorus", str "C", 2, false⟩,
       ⟨str "Chorus", str "C", 1, false⟩] := by
  refine ⟨by decide, by decide, by decide, by decide, by decide, by decide, by decide⟩

/-! ## Lemmas for `detect_key` (claim C6) -/

theorem pickBest_aux (step : RootCount → RootCount → RootCount)
    (hstep : step = fun b x => if x.total > b.total then x else b) :
    ∀ (rest : List RootCount) (cur : RootCount),
      IsFirstMax (cur :: rest) (rest.foldl step cur) := by
  intro rest
  induction rest with
  | nil =>
    intro cur
    exact ⟨[], [], rfl, by simp, by simp⟩
  | cons x xs ih =>
    intro cur
    rw [List.foldl_cons]
    by_cases hx : x.total > cur.total
    · have hstepx : step cur x = x := by rw [hstep]; simp [hx]
      rw [hstepx]
      obtain ⟨l1, l2, heq, hle, hlt⟩ := ih x
      refine ⟨cur :: l1, l2, ?_, ?_, ?_⟩
      · rw [List.cons_append, ← heq]
      · intro y hy
        rcases List.mem_cons.mp hy with h | h
        · subst h
          have hxle : x.total ≤ (xs.foldl step x).total := hle x (by simp)
          omega
        · exact hle y h
      · intro y hy
        rcases List.mem_cons.mp hy with h | h
        · subst h
          have hxle : x.total ≤ (xs.foldl step x).total := hle x (by simp)
          omega
        · exact hlt y h
    · have hstepx : step cur x = cur := by rw [hstep]; simp [hx]
      rw [hstepx]
      obtain ⟨l1, l2, heq, hle, hlt⟩ := ih cur
      cases l1 with
      | nil =>
        simp only [List.nil_append] at heq
        have hb : cur = xs.foldl step cur := (List.cons_eq_cons.mp heq).1
        refine ⟨[], x :: xs, ?_, ?_, by simp⟩
        · rw [List.nil_append, ← hb]
        · intro y hy
          rcases List.mem_cons.mp hy with h | h
          · subst h
            rw [← hb]
          · rcases List.mem_cons.mp h with h2 | h2
            · subst h2
              rw [← hb]
              omega
            · exact hle y (by simp [h2])
      | cons z l1' =>
        rw [List.cons_append] at heq
        obtain ⟨hz, hxs⟩ := List.cons_eq_cons.mp heq
        have hcurlt : cur.total < (xs.foldl step cur).total := by
          have := hlt z (by simp)
          rw [← hz] at this
          exact this
        refine ⟨cur :: x :: l1', l2, ?_, ?_, ?_⟩
        · rw [List.cons_append, List.cons_append, ← hxs]
        · intro y hy
          rcases List.mem_cons.mp hy with h | h
          · subst h; omega
          · rcases List.mem_cons.mp h with h2 | h2
            · subst h2; omega
            · exact hle y (by simp [h2])
        · intro y hy
          rcases List.mem_cons.mp hy with h | h
          · subst h; omega
          · rcases List.mem_cons.mp h with h2 | h2
            · subst h2; omega
            · have := hlt y (by rw [← hz]; simp [h2])
              exact this

theorem pickBest_spec (l : List RootCount) (h : l ≠ []) :
    ∃ b, pickBest l = some b ∧ IsFirstMax l b := by
  cases l with
  | nil => exact absurd rfl h
  | cons rc rest =>
    exact ⟨_, rfl, pickBest_aux _ rfl rest rc⟩

theorem bumpCounts_not_mem (acc : List RootCount) (r : Str) (b : Bool)
    (h : r ∉ acc.map (fun rc => rc.root)) :
    bumpCounts acc r b = acc ++ [⟨r, 1, if b then 1 else 0⟩] := by
  induction acc with
  | nil => rfl
  | cons rc rest ih =>
    simp only [List.map_cons, List.mem_cons] at h
    push_neg at h
    unfold bumpCounts
    rw [if_neg (by simp; exact fun hh => h.1 hh.symm)]
    rw [ih h.2]
    rfl

theorem map_update_id (rest : List RootCount) (r : Str) (b : Bool)
    (h : ∀ x ∈ rest, x.root ≠ r) :
    rest.map (fun rc => if rc.root = r then
      (⟨rc.root, rc.total + 1, rc.minor + (if b then 1 else 0)⟩ : RootCount)
      else rc) = rest := by
  induction rest with
  | nil => rfl
  | cons x xs ih =>
    simp only [List.map_cons]
    rw [if_neg (h x (by simp))]
    rw [ih (fun y hy => h y (by simp [hy]))]

theorem bumpCounts_mem (acc : List RootCount) (r : Str) (b : Bool) :
    (acc.map (fun rc => rc.root)).Nodup →
    r ∈ acc.map (fun rc => rc.root) →
    bumpCounts acc r b = acc.map (fun rc => if rc.root = r then
      (⟨rc.root, rc.total + 1, rc.minor + (if b then 1 else 0)⟩ : RootCount)
      else rc) := by
  induction acc with
  | nil => intro _ h; simp at h
  | cons rc rest ih =>
    intro hnd hmem
    simp only [List.map_cons, List.nodup_cons] at hnd
    by_cases h : rc.root = r
    · have hnone : ∀ x ∈ rest, x.root ≠ r := by
        intro x hx hc
        apply hnd.1
        rw [h, ← hc]
        exact List.mem_map.mpr ⟨x, hx, rfl⟩
      unfold bumpCounts
      rw [if_pos (by simp [h])]
      simp only [List.map_cons, if_pos h]
      rw [map_update_id rest r b hnone]
    · simp only [List.map_cons, List.mem_cons] at hmem
      rcases hmem with hmem | hmem
      · exact absurd hmem.symm h
      · unfold bumpCounts
        rw [if_neg (by simp [h])]
        simp only [List.map_cons, if_neg h]
        rw [ih hnd.2 hmem]

theorem countsOf_snoc (ms : List (Str × Str)) (m : Str × Str) :
    countsOf (ms ++ [m]) = bumpCounts (countsOf ms) m.1 (isMinorQual m.2) := by
  unfold countsOf
  rw [List.foldl_append]
  rfl

theorem rootTotal_snoc (ms : List (Str × Str)) (m : Str × Str) (r : Str) :
    rootTotal (ms ++ [m]) r = rootTotal ms r + (if m.1 = r then 1 else 0) := by
  unfold rootTotal
  rw [List.filter_append, List.length_append]
  congr 1
  by_cases h : m.1 = r <;> simp [List.filter_singleton, h]

theorem rootMinor_snoc (ms : List (Str × Str)) (m : Str × Str) (r : Str) :
    rootMinor (ms ++ [m]) r =
      rootMinor ms r + (if m.1 = r ∧ isMinorQual m.2 = true then 1 else 0) := by
  unfold rootMinor
  rw [List.filter_append, List.length_append]
  congr 1
  by_cases h1 : m.1 = r <;> by_cases h2 : isMinorQual m.2 = true <;>
    simp [List.filter_singleton, h1, h2]

theorem rootsSeq_snoc (ms : List (Str × Str)) (m : Str × Str) :
    rootsSeq (ms ++ [m]) = rootsSeq ms ++ [m.1] := by
  unfold rootsSeq
  rw [List.map_append]
  rfl

theorem rootTotal_zero_of_not_mem (ms : List (Str × Str)) (r : Str)
    (h : r ∉ rootsSeq ms) : rootTotal ms r = 0 := by
  unfold rootTotal
  rw [List.length_eq_zero, List.filter_eq_nil_iff]
  intro m hm
  simp only [beq_iff_eq]
  intro hc
  exact h (List.mem_map.mpr ⟨m, hm, hc⟩)

theorem rootTotal_pos_of_mem (ms : List (Str × Str)) (r : Str)
    (h : r ∈ rootsSeq ms) : 1 ≤ rootTotal ms r := by
  obtain ⟨m, hm, hr⟩ := List.mem_map.mp h
  unfold rootTotal
  have : m ∈ ms.filter (fun x => x.1 == r) :=
    List.mem_filter.mpr ⟨hm, by simp [hr]⟩
  cases hl : ms.filter (fun x => x.1 == r) with
  | nil => rw [hl] at this; simp at this
  | cons a as => simp

theorem idxOfStr_append_of_mem (l1 l2 : List Str) (r : Str) (h : r ∈ l1) :
    idxOfStr (l1 ++ l2) r = idxOfStr l1 r := by
  induction l1 with
  | nil => simp at h
  | cons x xs ih =>
    by_cases hx : x = r
    · simp [idxOfStr, hx]
    · rcases List.mem_cons.mp h with hh | hh
      · exact absurd hh.symm hx
      · simp only [List.cons_append, idxOfStr, if_neg hx, List.append_eq]
        rw [ih hh]

theorem idxOfStr_append_of_not_mem (l1 l2 : List Str) (r : Str) (h : r ∉ l1) :
    idxOfStr (l1 ++ l2) r = l1.length + idxOfStr l2 r := by
  induction l1 with
  | nil => simp [idxOfStr]
  | cons x xs ih =>
    have hx : ¬ x = r := fun hc => h (by simp [hc])
    simp only [List.cons_append, idxOfStr, if_neg hx, List.length_cons,
      List.append_eq]
    rw [ih (fun hc => h (by simp [hc]))]
    omega

theorem idxOfStr_lt_length (l : List Str) (r : Str) (h : r ∈ l) :
    idxOfStr l r < l.length := by
  induction l with
  | nil => simp at h
  | cons x xs ih =>
    by_cases hx : x = r
    · simp [idxOfStr, hx]
    · rcases List.mem_cons.mp h with hh | hh
      · exact absurd hh.symm hx
      · simp only [idxOfStr, if_neg hx, List.length_cons]
        have := ih hh
        omega

theorem rootMinor_zero_of_not_mem (ms : List (Str × Str)) (r : Str)
    (h : r ∉ rootsSeq ms) : rootMinor ms r = 0 := by
  unfold rootMinor
  rw [List.length_eq_zero, List.filter_eq_nil_iff]
  intro m hm
  simp only [Bool.and_eq_true, beq_iff_eq, not_and]
  intro hc
  exact absurd (List.mem_map.mpr ⟨m, hm, hc⟩) h

theorem countsOf_spec (ms : List (Str × Str)) :
    (∀ rc ∈ countsOf ms, rc.total = rootTotal ms rc.root ∧
      rc.minor = rootMinor ms rc.root) ∧
    (∀ r, r ∈ rootsSeq ms ↔ r ∈ (countsOf ms).map (fun rc => rc.root)) ∧
    ((countsOf ms).map (fun rc => rc.root)).Nodup ∧
    (∀ i j ri rj, i < j →
      ((countsOf ms).map (fun rc => rc.root)).get? i = some ri →
      ((countsOf ms).map (fun rc => rc.root)).get? j = some rj →
      idxOfStr (rootsSeq ms) ri < idxOfStr (rootsSeq ms) rj) := by
  induction ms using List.reverseRecOn with
  | nil =>
    refine ⟨by simp [countsOf], by simp [countsOf, rootsSeq], by simp [countsOf], ?_⟩
    intro i j ri rj hij hi hj
    simp [countsOf] at hi
  | append_singleton ms m ih =>
    obtain ⟨ih1, ih2, ih3, ih4⟩ := ih
    rw [countsOf_snoc, rootsSeq_snoc]
    by_cases hmem : m.1 ∈ (countsOf ms).map (fun rc => rc.root)
    · rw [bumpCounts_mem _ _ _ ih3 hmem]
      have hroots : (((countsOf ms).map (fun rc => if rc.root = m.1 then
          (⟨rc.root, rc.total + 1, rc.minor +
            (if isMinorQual m.2 then 1 else 0)⟩ : RootCount)
          else rc)).map (fun rc => rc.root)) = (countsOf ms).map (fun rc => rc.root) := by
        rw [List.map_map]
        apply List.map_congr_left
        intro x _
        by_cases hx : x.root = m.1 <;> simp [hx]
      refine ⟨?_, ?_, by rw [hroots]; exact ih3, ?_⟩
      · intro rc hrc
        obtain ⟨x, hx, hxe⟩ := List.mem_map.mp hrc
        by_cases hxr : x.root = m.1
        · rw [if_pos hxr] at hxe
          subst hxe
          simp only []
          rw [rootTotal_snoc, rootMinor_snoc]
          constructor
          · rw [(ih1 x hx).1, if_pos hxr.symm]
          · rw [(ih1 x hx).2]
            by_cases hmq : isMinorQual m.2 = true
            · rw [if_pos hmq, if_pos ⟨hxr.symm, hmq⟩]
            · rw [if_neg hmq, if_neg (by tauto)]
        · rw [if_neg hxr] at hxe
          subst hxe
          rw [rootTotal_snoc, rootMinor_snoc]
          constructor
          · rw [(ih1 x hx).1, if_neg (fun hc => hxr hc.symm)]
            omega
          · rw [(ih1 x hx).2, if_neg (by tauto)]
            omega
      · intro r
        rw [hroots, List.mem_append, List.mem_singleton, ih2 r]
        constructor
        · rintro (h | h)
          · exact h
          · subst h; exact hmem
        · intro h
          exact Or.inl h
      · intro i j ri rj hij hi hj
        rw [hroots] at hi hj
        have hri : ri ∈ (countsOf ms).map (fun rc => rc.root) := List.get?_mem hi
        have hrj : rj ∈ (countsOf ms).map (fun rc => rc.root) := List.get?_mem hj
        rw [idxOfStr_append_of_mem _ _ _ ((ih2 ri).mpr hri),
          idxOfStr_append_of_mem _ _ _ ((ih2 rj).mpr hrj)]
        exact ih4 i j ri rj hij hi hj
    · rw [bumpCounts_not_mem _ _ _ hmem]
      have hnotseq : m.1 ∉ rootsSeq ms := fun h => hmem ((ih2 m.1).mp h)
      have hmapapp : ((countsOf ms ++ [(⟨m.1, 1,
          if isMinorQual m.2 then 1 else 0⟩ : RootCount)]).map (fun rc => rc.root)) =
          (countsOf ms).map (fun rc => rc.root) ++ [m.1] := by
        rw [List.map_append]
        rfl
      refine ⟨?_, ?_, ?_, ?_⟩
      · intro rc hrc
        rcases List.mem_append.mp hrc with h | h
        · have hne : ¬ m.1 = rc.root := by
            intro hc
            exact hmem (by rw [hc]; exact List.mem_map.mpr ⟨rc, h, rfl⟩)
          rw [rootTotal_snoc, rootMinor_snoc, (ih1 rc h).1, (ih1 rc h).2,
            if_neg hne, if_neg (by tauto)]
          exact ⟨by omega, by omega⟩
        · rw [List.mem_singleton] at h
          subst h
          simp only []
          rw [rootTotal_snoc, rootMinor_snoc,
            rootTotal_zero_of_not_mem ms m.1 hnotseq,
            rootMinor_zero_of_not_mem ms m.1 hnotseq, if_pos rfl]
          constructor
          · rfl
          · by_cases hmq : isMinorQual m.2 = true
            · rw [if_pos hmq, if_pos ⟨rfl, hmq⟩]
            · rw [if_neg hmq, if_neg (by tauto)]
      · intro r
        rw [hmapapp, List.mem_append, List.mem_append, List.mem_singleton,
          ih2 r]
      · rw [hmapapp]
        simp only [List.nodup_append, List.nodup_cons, List.not_mem_nil,
          not_false_iff, List.nodup_nil, and_true, true_and]
        constructor
        · exact ih3
        · intro a ha
          simp only [List.mem_singleton]
          intro hc
          subst hc
          exact hmem ha
      · intro i j ri rj hij hi hj
        rw [hmapapp] at hi hj
        have hjlt : j < (countsOf ms).length + 1 := by
          have := List.get?_eq_some.mp hj
          obtain ⟨hlen, -⟩ := this
          simpa using hlen
        by_cases hjn : j < ((countsOf ms).map (fun rc => rc.root)).length
        · rw [List.get?_append (by simp at hjn ⊢; omega)] at hi
          rw [List.get?_append hjn] at hj
          have hri : ri ∈ (countsOf ms).map (fun rc => rc.root) := List.get?_mem hi
          have hrj : rj ∈ (countsOf ms).map (fun rc => rc.root) := List.get?_mem hj
          rw [idxOfStr_append_of_mem _ _ _ ((ih2 ri).mpr hri),
            idxOfStr_append_of_mem _ _ _ ((ih2 rj).mpr hrj)]
          exact ih4 i j ri rj hij hi hj
        · have hjeq : j = ((countsOf ms).map (fun rc => rc.root)).length := by
            simp only [List.length_map] at hjn ⊢
            omega
          rw [List.get?_append_right (by omega), hjeq] at hj
          simp only [Nat.sub_self, List.get?_cons_zero, Option.some.injEq] at hj
          subst hj
          rw [List.get?_append (by omega)] at hi
          have hri : ri ∈ (countsOf ms).map (fun rc => rc.root) := List.get?_mem hi
          rw [idxOfStr_append_of_mem _ _ _ ((ih2 ri).mpr hri),
            idxOfStr_append_of_not_mem _ _ _ hnotseq]
          have : idxOfStr (rootsSeq ms) ri < (rootsSeq ms).length :=
            idxOfStr_lt_length _ _ ((ih2 ri).mpr hri)
          omega

theorem matchChordAt_root (prev : Option Char) (l : Str) (r q : Str) (lc : Char)
    (n : Nat) (h : matchChordAt prev l = some (r, q, lc, n)) :
    ∃ c, (r = [c] ∨ ∃ d, r = [c, d] ∧ (d = '#' ∨ d = 'b')) ∧
      isRootLetter c = true := by
  unfold matchChordAt at h
  simp only [] at h
  split at h
  · simp at h
  · split at h
    · simp at h
    · rename_i c rest
      split at h
      · simp at h
      · rename_i hroot
        obtain ⟨ro, hmem, hro⟩ := List.exists_of_findSome?_eq_some h
        obtain ⟨qc, hqmem, hqc⟩ := List.exists_of_findSome?_eq_some hro
        obtain ⟨bc, hbmem, hbc⟩ := List.exists_of_findSome?_eq_some hqc
        split at hbc
        · simp only [Option.some.injEq, Prod.mk.injEq] at hbc
          obtain ⟨hr, -, -, -⟩ := hbc
          subst hr
          have hc : isRootLetter c = true := by
            cases hx : isRootLetter c
            · rw [hx] at hroot; simp at hroot
            · rfl
          refine ⟨c, ?_, hc⟩
          cases rest with
          | nil =>
            simp only [List.mem_singleton] at hmem
            subst hmem
            exact Or.inl rfl
          | cons d rest2 =>
            have hmem2 : ro ∈ (if (d == '#' || d == 'b') = true then
                [(([c, d] : Str), (2, d, rest2)), (([c] : Str), (1, c, d :: rest2))]
              else [(([c] : Str), (1, c, d :: rest2))]) := hmem
            clear hmem
            by_cases hd : (d == '#' || d == 'b') = true
            · rw [if_pos hd] at hmem2
              rcases List.mem_cons.mp hmem2 with hh | hh
              · subst hh
                refine Or.inr ⟨d, rfl, ?_⟩
                rcases Bool.or_eq_true _ _ |>.mp hd with h1 | h1
                · exact Or.inl (by simpa using h1)
                · exact Or.inr (by simpa using h1)
              · simp only [List.mem_singleton] at hh
                subst hh
                exact Or.inl rfl
            · rw [if_neg hd] at hmem2
              simp only [List.mem_singleton] at hmem2
              subst hmem2
              exact Or.inl rfl
        · simp at hbc

theorem findChordsAux_root (fuel : Nat) :
    ∀ (prev : Option Char) (l : Str) (r q : Str),
      (r, q) ∈ findChordsAux fuel prev l →
      ∃ c, (r = [c] ∨ ∃ d, r = [c, d] ∧ (d = '#' ∨ d = 'b')) ∧
        isRootLetter c = true := by
  induction fuel with
  | zero => intro prev l r q h; simp [findChordsAux] at h
  | succ f ih =>
    intro prev l r q h
    unfold findChordsAux at h
    split at h
    · simp at h
    · rename_i c rest
      split at h
      · rename_i r0 q0 lc n hm
        rcases List.mem_cons.mp h with hh | hh
        · rw [Prod.mk.injEq] at hh
          obtain ⟨h1, h2⟩ := hh
          subst h1
          exact matchChordAt_root prev (c :: rest) r q0 lc n hm
        · exact ih _ _ _ _ hh
      · exact ih _ _ _ _ h

theorem countsOf_ne_nil (ms : List (Str × Str)) (h : ms ≠ []) :
    countsOf ms ≠ [] := by
  obtain ⟨-, ih2, -, -⟩ := countsOf_spec ms
  intro hc
  cases hms : ms with
  | nil => exact h hms
  | cons m rest =>
    have hmem : m.1 ∈ rootsSeq ms := by
      rw [hms]
      exact List.mem_map.mpr ⟨m, by simp, rfl⟩
    have h2 := (ih2 m.1).mp hmem
    rw [hc] at h2
    simp at h2

theorem root_of_mem_rootsSeq (body : Str) (r : Str)
    (h : r ∈ rootsSeq (chordMatches body)) :
    ∃ c, (r = [c] ∨ ∃ d, r = [c, d] ∧ (d = '#' ∨ d = 'b')) ∧
      isRootLetter c = true := by
  obtain ⟨m, hm, hr⟩ := List.mem_map.mp h
  subst hr
  exact findChordsAux_root body.length none body m.1 m.2 (by
    show (m.1, m.2) ∈ chordMatches body
    simpa using hm)

/-- C6: `detect_key` returns the empty string exactly when no chord token
matches; otherwise it returns the root with the highest occurrence count
(ties broken by the first-encountered maximum), suffixed with `m` exactly
when the root's minor-to-total ratio is at least one half; on
`"Am F C G Am F C G"` it returns `"Am"` and on `"G D Em C"` it returns
`"G"`. -/
theorem claim_C6 (body : Str) :
    (detect_key body = [] ↔ chordMatches body = []) ∧
    (chordMatches body ≠ [] →
      ∃ r, r ∈ rootsSeq (chordMatches body) ∧
        (∀ r' ∈ rootsSeq (chordMatches body),
          rootTotal (chordMatches body) r' ≤ rootTotal (chordMatches body) r) ∧
        (∀ r' ∈ rootsSeq (chordMatches body),
          rootTotal (chordMatches body) r' = rootTotal (chordMatches body) r →
          idxOfStr (rootsSeq (chordMatches body)) r ≤
            idxOfStr (rootsSeq (chordMatches body)) r') ∧
        detect_key body =
          (if rootTotal (chordMatches body) r ≤ 2 * rootMinor (chordMatches body) r
           then r ++ str "m" else r)) ∧
    detect_key (str "Am F C G Am F C G") = str "Am" ∧
    detect_key (str "G D Em C") = str "G" := by
  obtain ⟨ih1, ih2, ih3, ih4⟩ := countsOf_spec (chordMatches body)
  refine ⟨?_, ?_, by rfl, by rfl⟩
  · constructor
    · intro hd
      by_contra hms
      have hc := countsOf_ne_nil (chordMatches body) hms
      obtain ⟨b, hpick, l1, l2, heq, hle, hlt⟩ := pickBest_spec _ hc
      have hbmem : b ∈ countsOf (chordMatches body) := by rw [heq]; simp
      have hbroot : b.root ∈ rootsSeq (chordMatches body) :=
        (ih2 b.root).mpr (List.mem_map.mpr ⟨b, hbmem, rfl⟩)
      obtain ⟨c, hshape, -⟩ := root_of_mem_rootsSeq body b.root hbroot
      have hne : b.root ≠ [] := by
        rcases hshape with h | ⟨d, h, -⟩ <;> rw [h] <;> simp
      unfold detect_key at hd
      simp only [hpick] at hd
      split at hd
      · exact hne (by cases hb : b.root with
          | nil => rfl
          | cons x xs => rw [hb] at hd; simp at hd)
      · exact hne hd
    · intro hms
      unfold detect_key
      simp only []
      rw [show countsOf (chordMatches body) = [] from by rw [hms]; rfl]
      rfl
  · intro hms
    have hc := countsOf_ne_nil (chordMatches body) hms
    obtain ⟨b, hpick, l1, l2, heq, hle, hlt⟩ := pickBest_spec _ hc
    have hbmem : b ∈ countsOf (chordMatches body) := by rw [heq]; simp
    have hbroot : b.root ∈ rootsSeq (chordMatches body) :=
      (ih2 b.root).mpr (List.mem_map.mpr ⟨b, hbmem, rfl⟩)
    have hbtotal := (ih1 b hbmem).1
    have hbminor := (ih1 b hbmem).2
    refine ⟨b.root, hbroot, ?_, ?_, ?_⟩
    · intro r' hr'
      obtain ⟨rc', hrc', hroot'⟩ := List.mem_map.mp ((ih2 r').mp hr')
      rw [← hroot', ← (ih1 rc' hrc').1, ← hbtotal]
      exact hle rc' hrc'
    · intro r' hr' htot
      have hb_at : ((countsOf (chordMatches body)).map
          (fun rc => rc.root)).get? l1.length = some b.root := by
        rw [List.get?_map, heq, List.get?_append_right (le_refl _)]
        simp
      obtain ⟨j, hj⟩ := List.mem_iff_get?.mp ((ih2 r').mp hr')
      rcases Nat.lt_trichotomy j l1.length with hjl | hjl | hjl
      · exfalso
        rw [List.get?_map, heq] at hj
        have hjl1 : (l1 ++ b :: l2).get? j = l1.get? j := by
          rw [List.get?_append (by omega)]
        rw [hjl1] at hj
        cases hget : l1.get? j with
        | none => rw [hget] at hj; simp at hj
        | some rc' =>
          rw [hget] at hj
          simp only [Option.map_some', Option.some.injEq] at hj
          have hrc'mem : rc' ∈ l1 := List.get?_mem hget
          have hrc'counts : rc' ∈ countsOf (chordMatches body) := by
            rw [heq]; exact List.mem_append.mpr (Or.inl hrc'mem)
          have h1 := hlt rc' hrc'mem
          rw [(ih1 rc' hrc'counts).1, hj, htot, ← hbtotal] at h1
          omega
      · have : r' = b.root := by
          rw [hjl] at hj
          rw [hb_at] at hj
          exact (Option.some.injEq .. ▸ hj).symm
        rw [this]
      · have := ih4 l1.length j b.root r' hjl hb_at hj
        omega
    · unfold detect_key
      simp only [hpick]
      have hpos : 0 < b.total := by
        rw [hbtotal]
        exact rootTotal_pos_of_mem _ _ hbroot
      by_cases hcond : rootTotal (chordMatches body) b.root ≤
          2 * rootMinor (chordMatches body) b.root
      · rw [if_pos hcond]
        rw [if_pos (by rw [hbtotal, hbminor]; simp [hpos]; omega)]
      · rw [if_neg hcond]
        rw [if_neg (by rw [hbtotal, hbminor]; simp; intro h; omega)]

/-- Witness for C6 at the concrete body `"G D Em C"`. -/
theorem claim_C6_witness :
    ∃ r, r ∈ rootsSeq (chordMatches (str "G D Em C")) ∧
      (∀ r' ∈ rootsSeq (chordMatches (str "G D Em C")),
        rootTotal (chordMatches (str "G D Em C")) r' ≤
          rootTotal (chordMatches (str "G D Em C")) r) ∧
      (∀ r' ∈ rootsSeq (chordMatches (str "G D Em C")),
        rootTotal (chordMatches (str "G D Em C")) r' =
          rootTotal (chordMatches (str "G D Em C")) r →
        idxOfStr (rootsSeq (chordMatches (str "G D Em C"))) r ≤
          idxOfStr (rootsSeq (chordMatches (str "G D Em C"))) r') ∧
      detect_key (str "G D Em C") =
        (if rootTotal (chordMatches (str "G D Em C")) r ≤
            2 * rootMinor (chordMatches (str "G D Em C")) r
         then r ++ str "m" else r) :=
  (claim_C6 (str "G D Em C")).2.1 (by decide)

/-! ## String lemmas for idempotence (claim C1) -/

theorem dropWhile_idem (p : Char → Bool) (l : Str) :
    (l.dropWhile p).dropWhile p = l.dropWhile p := by
  induction l with
  | nil => rfl
  | cons c rest ih =>
    by_cases h : p c = true
    · simp [List.dropWhile_cons, h, ih]
    · simp [List.dropWhile_cons, h]

theorem lstripL_idem (l : Str) : lstripL (lstripL l) = lstripL l :=
  dropWhile_idem isPySpace l

theorem rstripL_idem (l : Str) : rstripL (rstripL l) = rstripL l := by
  unfold rstripL
  rw [List.reverse_reverse, dropWhile_idem]

theorem rstripL_head (l : Str) (h : rstripL l ≠ []) :
    (rstripL l).head? = l.head? := by
  have hdec : l.reverse = (l.reverse.takeWhile isPySpace) ++
      (l.reverse.dropWhile isPySpace) := (List.takeWhile_append_dropWhile ..).symm
  have hl : l = rstripL l ++ (l.reverse.takeWhile isPySpace).reverse := by
    conv_lhs => rw [← List.reverse_reverse l, hdec]
    rw [List.reverse_append]
    rfl
  conv_rhs => rw [hl]
  rw [List.head?_append]
  cases hh : (rstripL l).head? with
  | none => exact absurd (List.head?_eq_none_iff.mp hh) h
  | some c => rfl

theorem lstripL_rstripL_comm (l : Str) (h : lstripL l = l) :
    lstripL (rstripL l) = rstripL l := by
  cases hr : rstripL l with
  | nil => rfl
  | cons c rest =>
    have hh : (rstripL l).head? = l.head? := rstripL_head l (by rw [hr]; simp)
    rw [hr] at hh
    cases l with
    | nil => simp [rstripL] at hr
    | cons d ds =>
      simp only [List.head?_cons, Option.some.injEq] at hh
      subst hh
      have hd : isPySpace c = false := by
        by_contra hws
        have : lstripL (c :: ds) = lstripL ds := by
          unfold lstripL
          rw [List.dropWhile_cons, if_pos (by simpa using hws)]
        rw [h] at this
        have hlen := congrArg List.length this
        have : (lstripL ds).length ≤ ds.length := (List.dropWhile_sublist isPySpace).length_le
        simp at hlen
        omega
      unfold lstripL
      rw [List.dropWhile_cons, if_neg (by simp [hd])]

theorem stripL_idem (l : Str) : stripL (stripL l) = stripL l := by
  unfold stripL
  rw [lstripL_rstripL_comm (lstripL l) (lstripL_idem l), rstripL_idem]

theorem stripL_lstrip_fix (l : Str) (h : stripL l = l) : lstripL l = l := by
  conv_lhs => rw [← h]
  rw [← stripL_idem l, h]
  unfold stripL
  rw [lstripL_rstripL_comm (lstripL l) (lstripL_idem l)]
  rw [show rstripL (lstripL l) = stripL l from rfl, h]

theorem noNl_of_sub (l l' : Str) (hsub : ∀ c ∈ l', c ∈ l) (h : noNl l) :
    noNl l' := fun c hc => h c (hsub c hc)

theorem noNl_lstripL (l : Str) (h : noNl l) : noNl (lstripL l) :=
  noNl_of_sub l _ (fun c hc => (List.dropWhile_sublist isPySpace).subset hc) h

theorem noNl_rstripL (l : Str) (h : noNl l) : noNl (rstripL l) := by
  intro c hc
  unfold rstripL at hc
  rw [List.mem_reverse] at hc
  exact h c (List.mem_reverse.mp ((List.dropWhile_sublist isPySpace).subset hc))

theorem noNl_stripL (l : Str) (h : noNl l) : noNl (stripL l) :=
  noNl_rstripL _ (noNl_lstripL l h)

theorem splitOnNl_ne_nil (s : Str) : splitOnNl s ≠ [] := by
  cases s with
  | nil => simp [splitOnNl]
  | cons c rest =>
    unfold splitOnNl
    split
    · simp
    · split <;> simp

theorem splitOnNl_mem_noNl (s : Str) : ∀ g ∈ splitOnNl s, noNl g := by
  induction s with
  | nil =>
    intro g hg
    simp only [splitOnNl, List.mem_singleton] at hg
    subst hg
    intro c hc
    simp at hc
  | cons c rest ih =>
    intro g hg
    unfold splitOnNl at hg
    split at hg
    · rcases List.mem_cons.mp hg with h | h
      · subst h; intro x hx; simp at hx
      · exact ih g h
    · rename_i hc10
      split at hg
      · rename_i hnil
        exact absurd hnil (splitOnNl_ne_nil rest)
      · rename_i g0 gs hgs
        rcases List.mem_cons.mp hg with h | h
        · subst h
          intro x hx
          rcases List.mem_cons.mp hx with h2 | h2
          · subst h2; simpa using hc10
          · exact ih g0 (by rw [hgs]; simp) x h2
        · exact ih g (by rw [hgs]; simp [h])

theorem joinNl_splitOnNl (s : Str) : joinNl (splitOnNl s) = s := by
  induction s with
  | nil => rfl
  | cons c rest ih =>
    unfold splitOnNl
    split
    · rename_i h10
      cases hs : splitOnNl rest with
      | nil => exact absurd hs (splitOnNl_ne_nil rest)
      | cons g gs =>
        rw [← hs]
        have : joinNl ([] :: splitOnNl rest) = '\n' :: joinNl (splitOnNl rest) := by
          rw [hs]; rfl
        rw [this, ih]
        have hc : c = '\n' := by
          have h1 : c.toNat = 10 := by simpa using h10
          exact Char.ext (UInt32.ext (by simpa [Char.toNat] using h1))
        rw [hc]
    · split
      · rename_i hnil
        exact absurd hnil (splitOnNl_ne_nil rest)
      · rename_i g gs hgs
        cases gs with
        | nil =>
          have : joinNl [c :: g] = c :: g := rfl
          rw [this]
          have : joinNl [g] = g := rfl
          rw [hgs] at ih
          rw [this] at ih
          rw [ih]
        | cons g2 gs2 =>
          have h1 : joinNl ((c :: g) :: g2 :: gs2) =
              (c :: g) ++ '\n' :: joinNl (g2 :: gs2) := rfl
          have h2 : joinNl (g :: g2 :: gs2) = g ++ '\n' :: joinNl (g2 :: gs2) := rfl
          rw [h1]
          rw [hgs, h2] at ih
          rw [List.cons_append, ih]

theorem splitOnNl_append_noNl (a b : Str) (h : noNl a) :
    splitOnNl (a ++ '\n' :: b) = a :: splitOnNl b := by
  induction a with
  | nil =>
    simp only [List.nil_append]
    conv_lhs => rw [splitOnNl]
    rw [if_pos (by simp [Char.toNat])]
  | cons c a' ih =>
    have hc : ¬ (c.toNat == 10) = true := by
      simp only [beq_iff_eq]
      exact h c (by simp)
    rw [List.cons_append]
    conv_lhs => rw [splitOnNl]
    rw [if_neg hc]
    rw [ih (fun x hx => h x (by simp [hx]))]

theorem lstripNlL_idem (l : Str) : lstripNlL (lstripNlL l) = lstripNlL l :=
  dropWhile_idem _ l

/-! ## Claim C1: character-class and token helpers -/

theorem head?_mem (l : Str) (c : Char) (h : l.head? = some c) : c ∈ l := by
  cases l with
  | nil => simp at h
  | cons a r =>
    simp only [List.head?_cons, Option.some.injEq] at h
    subst h
    exact List.mem_cons_self a r

theorem lstripL_head_nonWs (l : Str)
    (h : ∀ c, l.head? = some c → isPySpace c = false) : lstripL l = l := by
  cases l with
  | nil => rfl
  | cons c r =>
    unfold lstripL
    rw [List.dropWhile_cons, if_neg (by simp [h c rfl])]

theorem rstripL_last_nonWs (l : Str)
    (h : ∀ c, l.getLast? = some c → isPySpace c = false) : rstripL l = l := by
  unfold rstripL
  have h2 : l.reverse.dropWhile isPySpace = l.reverse := by
    cases hr : l.reverse with
    | nil => rfl
    | cons c r =>
      rw [List.dropWhile_cons, if_neg]
      simp only [Bool.not_eq_true]
      apply h
      rw [← List.head?_reverse, hr]
      rfl
  rw [h2, List.reverse_reverse]

theorem allNonWs_stripped (l : Str) (h : allNonWs l) : isStripped l := by
  unfold isStripped stripL
  rw [lstripL_head_nonWs l (fun c hc => h c (head?_mem l c hc)),
    rstripL_last_nonWs l (fun c hc =>
      h c (List.mem_of_mem_getLast? (by rw [hc]; rfl)))]

theorem allNonWs_noNl (l : Str) (h : allNonWs l) : noNl l := by
  intro c hc
  have h2 := h c hc
  simp only [isPySpace, Bool.or_eq_false_iff, beq_eq_false_iff_ne, ne_eq] at h2
  omega

theorem intercalate_one (s a : Str) : List.intercalate s [a] = a := by
  simp [List.intercalate, List.intersperse]

theorem intercalate_two (s a b : Str) (r : List Str) :
    List.intercalate s (a :: b :: r) = a ++ s ++ List.intercalate s (b :: r) := by
  simp [List.intercalate, List.intersperse]

theorem intercalate_space_ne_nil (a : Str) (r : List Str) (ha : a ≠ []) :
    List.intercalate [ ' ' ] (a :: r) ≠ [] := by
  cases r with
  | nil => rw [intercalate_one]; exact ha
  | cons b r2 =>
    rw [intercalate_two]
    cases a with
    | nil => exact absurd rfl ha
    | cons x xs => simp

theorem intercalate_space_chars (toks : List Str) :
    ∀ c ∈ List.intercalate [ ' ' ] toks, c = ' ' ∨ ∃ t ∈ toks, c ∈ t := by
  induction toks with
  | nil => intro c hc; simp [List.intercalate, List.intersperse] at hc
  | cons a r ih =>
    intro c hc
    cases r with
    | nil =>
      rw [intercalate_one] at hc
      exact Or.inr ⟨a, List.mem_singleton_self a, hc⟩
    | cons b r2 =>
      rw [intercalate_two] at hc
      rcases List.mem_append.mp hc with h1 | h1
      · rcases List.mem_append.mp h1 with h2 | h2
        · exact Or.inr ⟨a, List.mem_cons_self a _, h2⟩
        · left; simpa using h2
      · rcases ih c h1 with h2 | ⟨t, ht, hct⟩
        · exact Or.inl h2
        · exact Or.inr ⟨t, List.mem_cons_of_mem a ht, hct⟩

theorem intercalate_space_head (a : Str) (r : List Str) (ha : a ≠ []) :
    (List.intercalate [ ' ' ] (a :: r)).head? = a.head? := by
  cases r with
  | nil => rw [intercalate_one]
  | cons b r2 =>
    rw [intercalate_two]
    cases a with
    | nil => exact absurd rfl ha
    | cons x xs => simp

theorem intercalate_space_last (toks : List Str) :
    (∀ t ∈ toks, t ≠ []) → ∀ c, (List.intercalate [ ' ' ] toks).getLast? = some c →
      ∃ t ∈ toks, t.getLast? = some c := by
  induction toks with
  | nil => intro _ c hc; simp [List.intercalate, List.intersperse] at hc
  | cons a r ih =>
    intro h c hc
    cases r with
    | nil =>
      rw [intercalate_one] at hc
      exact ⟨a, List.mem_singleton_self a, hc⟩
    | cons b r2 =>
      rw [intercalate_two] at hc
      rw [List.append_assoc] at hc
      rw [List.getLast?_append_of_ne_nil _ (by simp)] at hc
      rw [List.getLast?_append_of_ne_nil _
        (intercalate_space_ne_nil b r2 (h b (List.mem_cons_of_mem a (List.mem_cons_self b r2))))] at hc
      obtain ⟨t, ht, h2⟩ := ih (fun t ht => h t (List.mem_cons_of_mem a ht)) c hc
      exact ⟨t, List.mem_cons_of_mem a ht, h2⟩

theorem intercalate_space_props (toks : List Str) (h0 : toks ≠ [])
    (h : ∀ t ∈ toks, t ≠ [] ∧ allNonWs t) :
    List.intercalate [ ' ' ] toks ≠ [] ∧
    isStripped (List.intercalate [ ' ' ] toks) ∧
    noNl (List.intercalate [ ' ' ] toks) := by
  obtain ⟨a, r, rfl⟩ : ∃ a r, toks = a :: r := by
    cases toks with
    | nil => exact absurd rfl h0
    | cons a r => exact ⟨a, r, rfl⟩
  have hne := intercalate_space_ne_nil a r (h a (List.mem_cons_self a r)).1
  refine ⟨hne, ?_, ?_⟩
  · unfold isStripped stripL
    rw [lstripL_head_nonWs _ (fun c hc => by
      rw [intercalate_space_head a r (h a (List.mem_cons_self a r)).1] at hc
      exact (h a (List.mem_cons_self a r)).2 c (head?_mem a c hc))]
    exact rstripL_last_nonWs _ (fun c hc => by
      obtain ⟨t, ht, h2⟩ := intercalate_space_last (a :: r) (fun t ht => (h t ht).1) c hc
      exact (h t ht).2 c (List.mem_of_mem_getLast? (by rw [h2]; rfl)))
  · intro c hc
    rcases intercalate_space_chars (a :: r) c hc with h1 | ⟨t, ht, hct⟩
    · subst h1; decide
    · exact allNonWs_noNl t (h t ht).2 c hct

theorem allNonWs_of_all (l : Str) (h : l.all (fun c => !isPySpace c) = true) :
    allNonWs l := by
  intro c hc
  have h2 := (List.all_eq_true.mp h) c hc
  simpa using h2

theorem noNl_of_all (l : Str) (h : l.all (fun c => !(c.toNat == 10)) = true) :
    noNl l := by
  intro c hc
  have h2 := (List.all_eq_true.mp h) c hc
  simpa using h2

theorem rootChar_props (c : Char) (h : isRootLetter c = true) :
    isPySpace c = false ∧ c.toNat ≠ 10 := by
  simp only [isRootLetter, Bool.and_eq_true, decide_eq_true_eq] at h
  constructor
  · simp only [isPySpace, Bool.or_eq_false_iff, beq_eq_false_iff_ne, ne_eq]
    omega
  · omega

theorem detect_key_allNonWs (body : Str) :
    allNonWs (detect_key body) ∧ noNl (detect_key body) := by
  unfold detect_key
  simp only []
  cases hpb : pickBest (countsOf (chordMatches body)) with
  | none =>
    constructor <;> intro c hc <;> simp at hc
  | some best =>
    have hne : countsOf (chordMatches body) ≠ [] := by
      intro hnil
      rw [hnil] at hpb
      simp [pickBest] at hpb
    obtain ⟨b, hb, hfm⟩ := pickBest_spec _ hne
    obtain ⟨l1, l2, heq, -, -⟩ := hfm
    have hbb : best = b := (Option.some.inj (hb.symm.trans hpb)).symm
    have hmem : best ∈ countsOf (chordMatches body) := by
      rw [heq, hbb]
      exact List.mem_append_right l1 (List.mem_cons_self b l2)
    have hroot : best.root ∈ rootsSeq (chordMatches body) :=
      ((countsOf_spec (chordMatches body)).2.1 best.root).mpr
        (List.mem_map_of_mem (fun rc => rc.root) hmem)
    obtain ⟨c, hshape, hc⟩ := root_of_mem_rootsSeq body best.root hroot
    have hprops : ∀ x ∈ best.root, isPySpace x = false ∧ x.toNat ≠ 10 := by
      intro x hx
      rcases hshape with h1 | ⟨d, h1, h2⟩
      · rw [h1] at hx
        rw [List.mem_singleton] at hx
        subst hx
        exact rootChar_props x hc
      · rw [h1] at hx
        rcases List.mem_cons.mp hx with h3 | h3
        · subst h3; exact rootChar_props x hc
        · rw [List.mem_singleton] at h3
          subst h3
          rcases h2 with rfl | rfl <;> exact ⟨by decide, by decide⟩
    have hm : ∀ x ∈ str "m", isPySpace x = false ∧ x.toNat ≠ 10 := by
      intro x hx
      rw [show str "m" = ['m'] from rfl, List.mem_singleton] at hx
      subst hx
      exact ⟨by decide, by decide⟩
    have hgoal : ∀ x ∈ (if (0 < best.total && best.total ≤ 2 * best.minor) = true
        then best.root ++ str "m" else best.root),
        isPySpace x = false ∧ x.toNat ≠ 10 := by
      intro x hx
      split at hx
      · rcases List.mem_append.mp hx with h1 | h1
        · exact hprops x h1
        · exact hm x h1
      · exact hprops x hx
    exact ⟨fun x hx => (hgoal x hx).1, fun x hx => (hgoal x hx).2⟩

theorem digit_props (c : Char) (h : isDigitA c = true) :
    isPySpace c = false ∧ c.toNat ≠ 10 := by
  simp only [isDigitA, Bool.and_eq_true, decide_eq_true_eq] at h
  constructor
  · simp only [isPySpace, Bool.or_eq_false_iff, beq_eq_false_iff_ne, ne_eq]
    omega
  · omega

theorem digitsOr1_props (name : Str) :
    digitsOr1 name ≠ [] ∧ allNonWs (digitsOr1 name) ∧ noNl (digitsOr1 name) := by
  unfold digitsOr1
  simp only []
  by_cases hd : (name.filter isDigitA == []) = true
  · rw [if_pos hd]
    exact ⟨by decide, allNonWs_of_all _ (by decide), noNl_of_all _ (by decide)⟩
  · rw [if_neg hd]
    refine ⟨by simpa using hd, ?_, ?_⟩
    · intro c hc
      exact (digit_props c (List.of_mem_filter hc)).1
    · intro c hc
      exact (digit_props c (List.of_mem_filter hc)).2

theorem token_append_props (pre suf : Str) (hp : pre ≠ [])
    (h1 : allNonWs pre) (h2 : noNl pre)
    (h3 : suf ≠ [] ∧ allNonWs suf ∧ noNl suf) :
    pre ++ suf ≠ [] ∧ allNonWs (pre ++ suf) ∧ noNl (pre ++ suf) := by
  refine ⟨?_, ?_, ?_⟩
  · cases pre with
    | nil => exact absurd rfl hp
    | cons c r => simp
  · intro c hc
    rcases List.mem_append.mp hc with h | h
    · exact h1 c h
    · exact h3.2.1 c h
  · intro c hc
    rcases List.mem_append.mp hc with h | h
    · exact h2 c h
    · exact h3.2.2 c h

theorem fallbackToken_props (name t : Str) (h : fallbackToken name = some t) :
    t ≠ [] ∧ allNonWs t ∧ noNl t := by
  unfold fallbackToken at h
  simp only [] at h
  split_ifs at h <;>
    first
    | (rw [Option.some.injEq] at h
       subst h
       first
       | exact ⟨by decide, allNonWs_of_all _ (by decide), noNl_of_all _ (by decide)⟩
       | exact token_append_props _ _ (by decide) (allNonWs_of_all _ (by decide))
           (noNl_of_all _ (by decide)) (digitsOr1_props name))
    | exact absurd h (by simp)

theorem fallbackRecord_props (acc : List Str) (name : Str)
    (hacc : ∀ t ∈ acc, t ≠ [] ∧ allNonWs t ∧ noNl t) :
    ∀ t ∈ fallbackRecord acc name, t ≠ [] ∧ allNonWs t ∧ noNl t := by
  unfold fallbackRecord
  cases htk : fallbackToken name with
  | none => exact hacc
  | some token =>
    show ∀ t ∈ (if !(token == []) && !acc.contains token then acc ++ [token] else acc),
      t ≠ [] ∧ allNonWs t ∧ noNl t
    by_cases h2 : (!(token == []) && !acc.contains token) = true
    · rw [if_pos h2]
      intro t2 ht2
      rcases List.mem_append.mp ht2 with h3 | h3
      · exact hacc t2 h3
      · rw [List.mem_singleton] at h3
        subst h3
        exact fallbackToken_props name t2 htk
    · rwa [if_neg h2]

theorem fallbackStep_props (acc : List Str) (l : Str)
    (hacc : ∀ t ∈ acc, t ≠ [] ∧ allNonWs t ∧ noNl t) :
    ∀ t ∈ fallbackStep acc l, t ≠ [] ∧ allNonWs t ∧ noNl t := by
  unfold fallbackStep
  by_cases h1 : (stripL l == []) = true
  · rwa [if_pos h1]
  · rw [if_neg h1]
    cases hn : fallbackHeaderName? l with
    | none => exact hacc
    | some name => exact fallbackRecord_props acc name hacc

theorem fallbackFold_props (lines : List Str) :
    ∀ acc : List Str, (∀ t ∈ acc, t ≠ [] ∧ allNonWs t ∧ noNl t) →
      ∀ t ∈ lines.foldl fallbackStep acc, t ≠ [] ∧ allNonWs t ∧ noNl t := by
  induction lines with
  | nil => intro acc hacc t ht; exact hacc t ht
  | cons l ls ih =>
    intro acc hacc t ht
    rw [List.foldl_cons] at ht
    exact ih _ (fallbackStep_props acc l hacc) t ht

theorem fallbackFlowTokens_props (body : Str) :
    ∀ t ∈ fallbackFlowTokens body, t ≠ [] ∧ allNonWs t ∧ noNl t := by
  intro t ht
  unfold fallbackFlowTokens at ht
  exact fallbackFold_props (splitOnNl body) [] (by intro t2 ht2; simp at ht2) t ht

theorem pyOr_of_ne (a b : Str) (h : a ≠ []) : pyOr a b = a := by
  unfold pyOr
  rw [if_neg (by simpa using h)]

theorem pyOr_ne_nil (a b : Str) (hb : b ≠ []) : pyOr a b ≠ [] := by
  unfold pyOr
  split
  · exact hb
  · rename_i h
    simpa using h

theorem pyOr_props (P : Str → Prop) (a b : Str) (ha : P a) (hb : P b) :
    P (pyOr a b) := by
  unfold pyOr
  split
  · exact hb
  · exact ha

theorem stripL_lstripL (v : Str) : stripL (lstripL v) = stripL v := by
  unfold stripL
  rw [lstripL_idem]

theorem isPrefixOf_append_self (n m : Str) : n.isPrefixOf (n ++ m) = true := by
  induction n with
  | nil => simp [List.isPrefixOf]
  | cons c r ih => simpa [List.isPrefixOf] using ih

theorem metaLineValue_mk (n v : Str) :
    metaLineValue n (n ++ str ": " ++ v) = some (stripL v) := by
  unfold metaLineValue
  rw [if_pos]
  · congr 1
    have hd : (n ++ str ": " ++ v).drop (n.length + 1) = ' ' :: v := by
      rw [show n ++ str ": " ++ v = (n ++ [':']) ++ (' ' :: v) by
        simp [str]]
      rw [show n.length + 1 = (n ++ [':']).length by simp]
      exact List.drop_left (n ++ [':']) (' ' :: v)
    rw [hd, List.dropWhile_cons, if_pos (by decide)]
    exact stripL_lstripL v
  · rw [show n ++ str ": " ++ v = (n ++ [':']) ++ (' ' :: v) by simp [str]]
    exact isPrefixOf_append_self (n ++ [':']) (' ' :: v)

theorem metaAt_props (lines : List Str) (h : ∀ l ∈ lines, noNl l)
    (i : Nat) (n : Str) :
    isStripped (metaAt lines i n) ∧ noNl (metaAt lines i n) := by
  unfold metaAt
  split
  · rename_i hlen
    cases hv : metaLineValue n (lines.getD i []) with
    | none => exact ⟨rfl, by intro c hc; simp at hc⟩
    | some v =>
      unfold metaLineValue at hv
      split at hv
      · rw [Option.some.injEq] at hv
        subst hv
        constructor
        · exact stripL_idem _
        · apply noNl_stripL
          intro c hc
          have hmem : c ∈ lines.getD i [] := by
            have h1 := (List.dropWhile_sublist isPySpace).subset hc
            exact (List.drop_subset _ _) h1
          have hline : lines.getD i [] ∈ lines := by
            rw [List.getD_eq_getElem lines [] hlen]
            exact List.getElem_mem hlen
          exact h _ hline c hmem
      · simp at hv
  · exact ⟨rfl, by intro c hc; simp at hc⟩

theorem splitOnce_chars (sep : Str) :
    ∀ (s a b : Str), splitOnce sep s = some (a, b) →
      (∀ c ∈ a, c ∈ s) ∧ (∀ c ∈ b, c ∈ s) := by
  intro s
  induction s with
  | nil =>
    intro a b h
    unfold splitOnce at h
    split at h
    · rw [Option.some.injEq, Prod.mk.injEq] at h
      obtain ⟨h1, h2⟩ := h
      subst h1
      subst h2
      exact ⟨by intro c hc; simp at hc, by intro c hc; simp at hc⟩
    · simp at h
  | cons c0 rest ih =>
    intro a b h
    unfold splitOnce at h
    split at h
    · rw [Option.some.injEq, Prod.mk.injEq] at h
      obtain ⟨h1, h2⟩ := h
      subst h1
      constructor
      · intro c hc; simp at hc
      · intro c hc
        rw [← h2] at hc
        exact (List.drop_subset _ _) hc
    · split at h
      · rename_i a' b' hrec
        rw [Option.some.injEq, Prod.mk.injEq] at h
        obtain ⟨h1, h2⟩ := h
        obtain ⟨iha, ihb⟩ := ih a' b' hrec
        constructor
        · intro c hc
          rw [← h1] at hc
          rcases List.mem_cons.mp hc with h3 | h3
          · subst h3; exact List.mem_cons_self _ _
          · exact List.mem_cons_of_mem _ (iha c h3)
        · intro c hc
          rw [← h2] at hc
          exact List.mem_cons_of_mem _ (ihb c hc)
      · simp at h

theorem rsplitDotHead_chars (s : Str) : ∀ c ∈ rsplitDotHead s, c ∈ s := by
  unfold rsplitDotHead
  split
  · intro c hc; exact hc
  · rename_i d rest hdr
    intro c hc
    rw [List.mem_reverse] at hc
    have h1 : c ∈ d :: rest := List.mem_cons_of_mem d hc
    rw [← hdr] at h1
    have h2 := (List.dropWhile_sublist _).subset h1
    rwa [List.mem_reverse] at h2

theorem splitOnNl_noNl_getD (tab : Str) (i : Nat) :
    noNl ((splitOnNl tab).getD i []) := by
  by_cases h : i < (splitOnNl tab).length
  · apply splitOnNl_mem_noNl tab
    rw [List.getD_eq_getElem _ _ h]
    exact List.getElem_mem h
  · rw [List.getD_eq_default _ _ (by omega)]
    intro c hc
    simp at hc

theorem fileFallback_props (f : Str) (hF : noNl f) :
    isStripped (fileFallback f).1 ∧ noNl (fileFallback f).1 ∧
    isStripped (fileFallback f).2 ∧ noNl (fileFallback f).2 := by
  have hbase : ∀ c ∈ rsplitDotHead f, c ∈ f := rsplitDotHead_chars f
  unfold fileFallback
  split
  · simp only []
    cases hsp : splitOnce (str " - ") (rsplitDotHead f) with
    | none =>
      refine ⟨?_, ?_, ?_, ?_⟩
      · show isStripped ([] : Str)
        rfl
      · show noNl ([] : Str)
        intro c hc; simp at hc
      · show isStripped (stripL (rsplitDotHead f))
        exact stripL_idem _
      · show noNl (stripL (rsplitDotHead f))
        exact noNl_stripL _ (fun c hc => hF c (hbase c hc))
    | some ab =>
      obtain ⟨h1, h2⟩ := splitOnce_chars (str " - ") (rsplitDotHead f) ab.1 ab.2
        (by rw [hsp])
      refine ⟨?_, ?_, ?_, ?_⟩
      · show isStripped (stripL ab.1)
        exact stripL_idem _
      · show noNl (stripL ab.1)
        exact noNl_stripL _ (fun c hc => hF c (hbase c (h1 c hc)))
      · show isStripped (stripL ab.2)
        exact stripL_idem _
      · show noNl (stripL ab.2)
        exact noNl_stripL _ (fun c hc => hF c (hbase c (h2 c hc)))
  · exact ⟨rfl, by intro c hc; simp at hc, rfl, by intro c hc; simp at hc⟩

theorem resolveName_props (P : Str → Prop) (hdr fb fp d : Str)
    (h1 : P hdr) (h2 : P fb) (h3 : P fp) (h4 : P d) :
    P (resolveName hdr fb fp d) :=
  pyOr_props P _ _ (pyOr_props P _ _ (pyOr_props P _ _ h1 h2) h3) h4

theorem resolveName_ne_nil (hdr fb fp d : Str) (hd : d ≠ []) :
    resolveName hdr fb fp d ≠ [] := pyOr_ne_nil _ _ hd

theorem resolveName_of_hdr (hdr fb fp d : Str) (h : hdr ≠ []) :
    resolveName hdr fb fp d = hdr := by
  unfold resolveName
  rw [pyOr_of_ne _ _ h, pyOr_of_ne _ _ h, pyOr_of_ne _ _ h]

theorem parseMetaBlock_props (lines : List Str) (h : ∀ l ∈ lines, noNl l) :
    ∀ v ∈ metaValues (parseMetaBlock lines), isStripped v ∧ noNl v := by
  intro v hv
  unfold parseMetaBlock metaValues at hv
  simp only [List.mem_cons, List.not_mem_nil, or_false] at hv
  rcases hv with rfl | rfl | rfl | rfl | rfl | rfl | rfl <;>
    exact metaAt_props lines h _ _

theorem applyDefaults_eq (k c te ti fl tu tr : Str) (body : Str) :
    applyDefaults ⟨k, c, te, ti, fl, tu, tr⟩ body =
      ⟨if k = [] then detect_key body else k,
       if c = [] then str "0" else c,
       te, ti, fl,
       if tu = [] then str "Standard" else tu,
       tr⟩ := by
  unfold applyDefaults
  by_cases hc : (c == []) = true <;> by_cases ht : (tu == []) = true <;>
    by_cases hk : (k == []) = true <;>
    simp_all [beq_iff_eq]

theorem applyDefaults_props (meta0 : Meta) (body : Str)
    (h : ∀ v ∈ metaValues meta0, isStripped v ∧ noNl v) :
    (∀ v ∈ metaValues (applyDefaults meta0 body), isStripped v ∧ noNl v) ∧
    (applyDefaults meta0 body).capo ≠ [] ∧
    (applyDefaults meta0 body).tuning ≠ [] ∧
    ((applyDefaults meta0 body).key = [] → detect_key body = []) ∧
    (applyDefaults meta0 body).flow = meta0.flow := by
  obtain ⟨k, c, te, ti, fl, tu, tr⟩ := meta0
  have hdk : isStripped (detect_key body) ∧ noNl (detect_key body) :=
    ⟨allNonWs_stripped _ (detect_key_allNonWs body).1, (detect_key_allNonWs body).2⟩
  rw [applyDefaults_eq]
  refine ⟨?_, ?_, ?_, ?_, rfl⟩
  · intro v hv
    have hmv : metaValues (⟨if k = [] then detect_key body else k,
        if c = [] then str "0" else c, te, ti, fl,
        if tu = [] then str "Standard" else tu, tr⟩ : Meta) =
        [if k = [] then detect_key body else k,
         if c = [] then str "0" else c, te, ti, fl,
         if tu = [] then str "Standard" else tu, tr] := rfl
    rw [hmv] at hv
    simp only [List.mem_cons, List.not_mem_nil, or_false] at hv
    have hin : ∀ x, x ∈ ([k, c, te, ti, fl, tu, tr] : List Str) →
        isStripped x ∧ noNl x := by
      intro x hx
      exact h x (by simpa [metaValues] using hx)
    rcases hv with rfl | rfl | rfl | rfl | rfl | rfl | rfl
    · split
      · exact hdk
      · exact hin k (by simp)
    · split
      · exact ⟨(by decide : stripL (str "0") = str "0"),
          noNl_of_all _ (by decide)⟩
      · exact hin c (by simp)
    · exact hin v (by simp)
    · exact hin v (by simp)
    · exact hin v (by simp)
    · split
      · exact ⟨(by decide : stripL (str "Standard") = str "Standard"),
          noNl_of_all _ (by decide)⟩
      · exact hin tu (by simp)
    · exact hin v (by simp)
  · show (if c = [] then str "0" else c) ≠ []
    split
    · decide
    · rename_i h2; exact h2
  · show (if tu = [] then str "Standard" else tu) ≠ []
    split
    · decide
    · rename_i h2; exact h2
  · show (if k = [] then detect_key body else k) = [] → detect_key body = []
    split
    · exact id
    · rename_i h2; intro h3; exact absurd h3 h2

theorem flowFix_props (m : Meta) (body : Str)
    (h : ∀ v ∈ metaValues m, isStripped v ∧ noNl v) :
    (∀ v ∈ metaValues (flowFix m body), isStripped v ∧ noNl v) ∧
    (flowFix m body).capo = m.capo ∧ (flowFix m body).tuning = m.tuning ∧
    (flowFix m body).key = m.key ∧
    ((flowFix m body).flow = [] → fallbackFlowTokens body = []) := by
  unfold flowFix
  simp only []
  by_cases hfl : (m.flow == []) = true
  · rw [if_pos hfl]
    by_cases htk : (fallbackFlowTokens body).isEmpty = true
    · rw [if_neg (by simp [htk])]
      refine ⟨h, rfl, rfl, rfl, ?_⟩
      intro h2
      exact List.isEmpty_iff.mp htk
    · rw [if_pos (by simp [htk])]
      have htoks : ∀ t ∈ fallbackFlowTokens body, t ≠ [] ∧ allNonWs t :=
        fun t ht => ⟨(fallbackFlowTokens_props body t ht).1,
          (fallbackFlowTokens_props body t ht).2.1⟩
      have hne : fallbackFlowTokens body ≠ [] := by
        intro h2
        rw [h2] at htk
        simp at htk
      obtain ⟨hXne, hXs, hXn⟩ :=
        intercalate_space_props (fallbackFlowTokens body) hne htoks
      refine ⟨?_, rfl, rfl, rfl, ?_⟩
      · intro v hv
        have hmv : metaValues { m with
            flow := List.intercalate [ ' ' ] (fallbackFlowTokens body) } =
            [m.key, m.capo, m.tempo, m.time,
             List.intercalate [ ' ' ] (fallbackFlowTokens body),
             m.tuning, m.transposedKey] := rfl
        rw [hmv] at hv
        simp only [List.mem_cons, List.not_mem_nil, or_false] at hv
        rcases hv with rfl | rfl | rfl | rfl | rfl | rfl | rfl
        · exact h m.key (by simp [metaValues])
        · exact h m.capo (by simp [metaValues])
        · exact h m.tempo (by simp [metaValues])
        · exact h m.time (by simp [metaValues])
        · exact ⟨hXs, hXn⟩
        · exact h m.tuning (by simp [metaValues])
        · exact h m.transposedKey (by simp [metaValues])
      · intro h2
        exact absurd h2 hXne
  · rw [if_neg hfl]
    refine ⟨h, rfl, rfl, rfl, ?_⟩
    intro h2
    exact absurd h2 (by simpa using hfl)

theorem parseInput_props (tab a t f : Str)
    (hA1 : isStripped a) (hA2 : noNl a) (hT1 : isStripped t) (hT2 : noNl t)
    (hF : noNl f) :
    (parseInput tab a t f).title ≠ [] ∧
    isStripped (parseInput tab a t f).title ∧ noNl (parseInput tab a t f).title ∧
    (parseInput tab a t f).artist ≠ [] ∧
    isStripped (parseInput tab a t f).artist ∧ noNl (parseInput tab a t f).artist ∧
    (∀ v ∈ metaValues (parseInput tab a t f).meta, isStripped v ∧ noNl v) ∧
    (parseInput tab a t f).meta.capo ≠ [] ∧
    (parseInput tab a t f).meta.tuning ≠ [] ∧
    ((parseInput tab a t f).meta.key = [] →
      detect_key (parseInput tab a t f).body = []) ∧
    lstripNlL (parseInput tab a t f).body = (parseInput tab a t f).body := by
  have hlines : ∀ l ∈ splitOnNl tab, noNl l := splitOnNl_mem_noNl tab
  have hff := fileFallback_props f hF
  have hP : ∀ i : Nat, isStripped (if (splitOnNl tab).length > i
      then stripL ((splitOnNl tab).getD i []) else []) ∧
      noNl (if (splitOnNl tab).length > i
      then stripL ((splitOnNl tab).getD i []) else []) := by
    intro i
    split
    · exact ⟨stripL_idem _, noNl_stripL _ (splitOnNl_noNl_getD tab i)⟩
    · exact ⟨rfl, by intro c hc; simp at hc⟩
  have hAD := applyDefaults_props (parseMetaBlock (splitOnNl tab))
    (lstripNlL (joinNl ((splitOnNl tab).drop (bodyStart (splitOnNl tab)))))
    (parseMetaBlock_props (splitOnNl tab) hlines)
  refine ⟨?_, ?_, ?_, ?_, ?_, ?_, hAD.1, hAD.2.1, hAD.2.2.1, hAD.2.2.2.1, ?_⟩
  · exact resolveName_ne_nil _ _ _ _ (by decide)
  · exact (resolveName_props (fun s => isStripped s ∧ noNl s) _ _ _ _
      (hP 0) ⟨hT1, hT2⟩ ⟨hff.2.2.1, hff.2.2.2⟩
      ⟨(by decide : stripL (str "Unknown Song") = str "Unknown Song"),
       noNl_of_all _ (by decide)⟩).1
  · exact (resolveName_props (fun s => isStripped s ∧ noNl s) _ _ _ _
      (hP 0) ⟨hT1, hT2⟩ ⟨hff.2.2.1, hff.2.2.2⟩
      ⟨(by decide : stripL (str "Unknown Song") = str "Unknown Song"),
       noNl_of_all _ (by decide)⟩).2
  · exact resolveName_ne_nil _ _ _ _ (by decide)
  · exact (resolveName_props (fun s => isStripped s ∧ noNl s) _ _ _ _
      (hP 1) ⟨hA1, hA2⟩ ⟨hff.1, hff.2.1⟩
      ⟨(by decide : stripL (str "Unknown Artist") = str "Unknown Artist"),
       noNl_of_all _ (by decide)⟩).1
  · exact (resolveName_props (fun s => isStripped s ∧ noNl s) _ _ _ _
      (hP 1) ⟨hA1, hA2⟩ ⟨hff.1, hff.2.1⟩
      ⟨(by decide : stripL (str "Unknown Artist") = str "Unknown Artist"),
       noNl_of_all _ (by decide)⟩).2
  · exact lstripNlL_idem _

theorem rebuildCore_headerless_eq (tab a t f : Str)
    (h0 : headerCount tab a t f = 0) :
    rebuildCore tab a t f =
      some ⟨(parseInput tab a t f).title, (parseInput tab a t f).artist,
            flowFix (parseInput tab a t f).meta (parseInput tab a t f).body,
            (parseInput tab a t f).body⟩ := by
  unfold headerCount at h0
  unfold rebuildCore
  simp only []
  rw [if_neg (by omega)]
  rfl

theorem rebuildCore_headerless_good (tab a t f : Str)
    (hA1 : isStripped a) (hA2 : noNl a) (hT1 : isStripped t) (hT2 : noNl t)
    (hF : noNl f) (h0 : headerCount tab a t f = 0) (r : Rebuilt)
    (hr : rebuildCore tab a t f = some r) : GoodOut r := by
  rw [rebuildCore_headerless_eq tab a t f h0, Option.some.injEq] at hr
  subst hr
  obtain ⟨hT, hTs, hTn, hA, hAs, hAn, hmv, hcapo, htuning, hkey, hbody⟩ :=
    parseInput_props tab a t f hA1 hA2 hT1 hT2 hF
  obtain ⟨hfv, hfc, hft, hfk, hff⟩ :=
    flowFix_props (parseInput tab a t f).meta (parseInput tab a t f).body hmv
  refine ⟨hT, hTs, hTn, hA, hAs, hAn, hfv, ?_, ?_, ?_, hff, hbody, ?_⟩
  · show (flowFix (parseInput tab a t f).meta (parseInput tab a t f).body).capo ≠ []
    rw [hfc]; exact hcapo
  · show (flowFix (parseInput tab a t f).meta (parseInput tab a t f).body).tuning ≠ []
    rw [hft]; exact htuning
  · show (flowFix (parseInput tab a t f).meta (parseInput tab a t f).body).key = [] →
      detect_key (parseInput tab a t f).body = []
    rw [hfk]; exact hkey
  · exact h0

theorem noNl_append (a b : Str) (h1 : noNl a) (h2 : noNl b) : noNl (a ++ b) := by
  intro c hc
  rcases List.mem_append.mp hc with h | h
  · exact h1 c h
  · exact h2 c h

theorem splitOnNl_newline_cons (b : Str) : splitOnNl ('\n' :: b) = [] :: splitOnNl b := by
  conv_lhs => rw [splitOnNl]
  rw [if_pos (by decide)]

theorem splitOnNl_line_append (a b t : Str) (h : noNl a) :
    splitOnNl ((a ++ '\n' :: b) ++ t) = a :: splitOnNl (b ++ t) := by
  rw [List.append_assoc, List.cons_append]
  exact splitOnNl_append_noNl a (b ++ t) h

theorem metaAt_cons_eq (lines : List Str) (i : Nat) (n v : Str)
    (hlen : i < lines.length) (hget : lines.getD i [] = n ++ str ": " ++ v)
    (hv : stripL v = v) : metaAt lines i n = v := by
  unfold metaAt
  rw [if_pos hlen, hget, metaLineValue_mk, hv]

theorem parseInput_eq (tab a t f : Str) :
    parseInput tab a t f =
      ⟨resolveName (if (splitOnNl tab).length > 0
          then stripL ((splitOnNl tab).getD 0 []) else []) t
          (fileFallback f).2 (str "Unknown Song"),
       resolveName (if (splitOnNl tab).length > 1
          then stripL ((splitOnNl tab).getD 1 []) else []) a
          (fileFallback f).1 (str "Unknown Artist"),
       applyDefaults (parseMetaBlock (splitOnNl tab))
         (lstripNlL (joinNl ((splitOnNl tab).drop (bodyStart (splitOnNl tab))))),
       lstripNlL (joinNl ((splitOnNl tab).drop (bodyStart (splitOnNl tab))))⟩ := rfl

theorem flowFix_noop (m : Meta) (body : Str)
    (h : m.flow = [] → fallbackFlowTokens body = []) : flowFix m body = m := by
  unfold flowFix
  by_cases hfl : (m.flow == []) = true
  · rw [if_pos hfl]
    simp only []
    rw [if_neg (show ¬(!(fallbackFlowTokens body).isEmpty) = true by
      rw [h (by simpa using hfl)]
      decide)]
  · rw [if_neg hfl]

theorem splitOnNl_assemble (T A k c te ti fl tu tr B : Str)
    (hT : noNl T) (hA : noNl A) (hk : noNl k) (hc : noNl c) (hte : noNl te)
    (hti : noNl ti) (hfl : noNl fl) (htu : noNl tu) (htr : noNl tr) :
    splitOnNl (assembleOut ⟨T, A, ⟨k, c, te, ti, fl, tu, tr⟩, B⟩) =
      T :: A :: (str "Key" ++ str ": " ++ k) :: (str "Capo" ++ str ": " ++ c) ::
      (str "Tempo" ++ str ": " ++ te) :: (str "Time" ++ str ": " ++ ti) ::
      (str "Flow" ++ str ": " ++ fl) :: (str "Tuning" ++ str ": " ++ tu) ::
      (str "TransposedKey" ++ str ": " ++ tr) :: [] :: splitOnNl B := by
  have hs : assembleOut ⟨T, A, ⟨k, c, te, ti, fl, tu, tr⟩, B⟩ =
      (T ++ '\n' :: (A ++ '\n' :: ((str "Key" ++ str ": " ++ k) ++ '\n' ::
      ((str "Capo" ++ str ": " ++ c) ++ '\n' :: ((str "Tempo" ++ str ": " ++ te) ++ '\n' ::
      ((str "Time" ++ str ": " ++ ti) ++ '\n' :: ((str "Flow" ++ str ": " ++ fl) ++ '\n' ::
      ((str "Tuning" ++ str ": " ++ tu) ++ '\n' ::
      ((str "TransposedKey" ++ str ": " ++ tr) ++ '\n' :: ('\n' :: ([] : Str))))))))))) ++ B :=
    rfl
  rw [hs]
  rw [List.append_assoc T, List.cons_append, splitOnNl_append_noNl T _ hT]
  rw [List.append_assoc A, List.cons_append, splitOnNl_append_noNl A _ hA]
  rw [List.append_assoc (str "Key" ++ str ": " ++ k), List.cons_append,
    splitOnNl_append_noNl (str "Key" ++ str ": " ++ k) _
      (noNl_append _ _ (noNl_of_all _ (by decide)) hk)]
  rw [List.append_assoc (str "Capo" ++ str ": " ++ c), List.cons_append,
    splitOnNl_append_noNl (str "Capo" ++ str ": " ++ c) _
      (noNl_append _ _ (noNl_of_all _ (by decide)) hc)]
  rw [List.append_assoc (str "Tempo" ++ str ": " ++ te), List.cons_append,
    splitOnNl_append_noNl (str "Tempo" ++ str ": " ++ te) _
      (noNl_append _ _ (noNl_of_all _ (by decide)) hte)]
  rw [List.append_assoc (str "Time" ++ str ": " ++ ti), List.cons_append,
    splitOnNl_append_noNl (str "Time" ++ str ": " ++ ti) _
      (noNl_append _ _ (noNl_of_all _ (by decide)) hti)]
  rw [List.append_assoc (str "Flow" ++ str ": " ++ fl), List.cons_append,
    splitOnNl_append_noNl (str "Flow" ++ str ": " ++ fl) _
      (noNl_append _ _ (noNl_of_all _ (by decide)) hfl)]
  rw [List.append_assoc (str "Tuning" ++ str ": " ++ tu), List.cons_append,
    splitOnNl_append_noNl (str "Tuning" ++ str ": " ++ tu) _
      (noNl_append _ _ (noNl_of_all _ (by decide)) htu)]
  rw [List.append_assoc (str "TransposedKey" ++ str ": " ++ tr), List.cons_append,
    splitOnNl_append_noNl (str "TransposedKey" ++ str ": " ++ tr) _
      (noNl_append _ _ (noNl_of_all _ (by decide)) htr)]
  rw [show ('\n' :: ([] : Str)) ++ B = '\n' :: B from rfl]
  rw [splitOnNl_newline_cons]

theorem parseMetaBlock_shape (T A k c te ti fl tu tr : Str) (rest : List Str)
    (hks : stripL k = k) (hcs : stripL c = c) (htes : stripL te = te)
    (htis : stripL ti = ti) (hfls : stripL fl = fl) (htus : stripL tu = tu)
    (htrs : stripL tr = tr) :
    parseMetaBlock (T :: A :: (str "Key" ++ str ": " ++ k) ::
      (str "Capo" ++ str ": " ++ c) :: (str "Tempo" ++ str ": " ++ te) ::
      (str "Time" ++ str ": " ++ ti) :: (str "Flow" ++ str ": " ++ fl) ::
      (str "Tuning" ++ str ": " ++ tu) :: (str "TransposedKey" ++ str ": " ++ tr) ::
      [] :: rest) = ⟨k, c, te, ti, fl, tu, tr⟩ := by
  have hlen : ∀ i, i < 10 → i < (T :: A :: (str "Key" ++ str ": " ++ k) ::
      (str "Capo" ++ str ": " ++ c) :: (str "Tempo" ++ str ": " ++ te) ::
      (str "Time" ++ str ": " ++ ti) :: (str "Flow" ++ str ": " ++ fl) ::
      (str "Tuning" ++ str ": " ++ tu) :: (str "TransposedKey" ++ str ": " ++ tr) ::
      [] :: rest).length := by
    intro i hi
    simp only [List.length_cons]
    omega
  unfold parseMetaBlock
  congr 1
  · exact metaAt_cons_eq _ 2 _ k (hlen 2 (by omega)) rfl hks
  · exact metaAt_cons_eq _ 3 _ c (hlen 3 (by omega)) rfl hcs
  · exact metaAt_cons_eq _ 4 _ te (hlen 4 (by omega)) rfl htes
  · exact metaAt_cons_eq _ 5 _ ti (hlen 5 (by omega)) rfl htis
  · exact metaAt_cons_eq _ 6 _ fl (hlen 6 (by omega)) rfl hfls
  · exact metaAt_cons_eq _ 7 _ tu (hlen 7 (by omega)) rfl htus
  · exact metaAt_cons_eq _ 8 _ tr (hlen 8 (by omega)) rfl htrs

theorem bodyStart_shape (T A k c te ti fl tu tr : Str) (rest : List Str) :
    bodyStart (T :: A :: (str "Key" ++ str ": " ++ k) ::
      (str "Capo" ++ str ": " ++ c) :: (str "Tempo" ++ str ": " ++ te) ::
      (str "Time" ++ str ": " ++ ti) :: (str "Flow" ++ str ": " ++ fl) ::
      (str "Tuning" ++ str ": " ++ tu) :: (str "TransposedKey" ++ str ": " ++ tr) ::
      [] :: rest) = 10 := by
  unfold bodyStart
  simp only []
  rw [if_pos]
  · decide
  · rw [show (T :: A :: (str "Key" ++ str ": " ++ k) ::
        (str "Capo" ++ str ": " ++ c) :: (str "Tempo" ++ str ": " ++ te) ::
        (str "Time" ++ str ": " ++ ti) :: (str "Flow" ++ str ": " ++ fl) ::
        (str "Tuning" ++ str ": " ++ tu) :: (str "TransposedKey" ++ str ": " ++ tr) ::
        [] :: rest).getD (2 + metaNames.length) [] = [] from rfl]
    simp only [List.length_cons, Bool.and_eq_true, decide_eq_true_eq]
    constructor
    · rw [show metaNames.length = 7 from rfl]
      omega
    · rfl

theorem parseInput_assembleOut (T A k c te ti fl tu tr B a t f : Str)
    (h : GoodOut ⟨T, A, ⟨k, c, te, ti, fl, tu, tr⟩, B⟩) :
    parseInput (assembleOut ⟨T, A, ⟨k, c, te, ti, fl, tu, tr⟩, B⟩) a t f =
      ⟨T, A, ⟨k, c, te, ti, fl, tu, tr⟩, B⟩ := by
  obtain ⟨hT0, hTs, hTn, hA0, hAs, hAn, hmv, hcapo, htun, hkey0, hflow0,
    hlstrip, hfound⟩ := h
  have hT0' : T ≠ [] := hT0
  have hTs' : stripL T = T := hTs
  have hTn' : noNl T := hTn
  have hA0' : A ≠ [] := hA0
  have hAs' : stripL A = A := hAs
  have hAn' : noNl A := hAn
  have hcapo' : c ≠ [] := hcapo
  have htun' : tu ≠ [] := htun
  have hkey0' : k = [] → detect_key B = [] := hkey0
  have hlB : lstripNlL B = B := hlstrip
  have hmv' : ∀ v ∈ ([k, c, te, ti, fl, tu, tr] : List Str),
      isStripped v ∧ noNl v := by
    intro v hv
    exact hmv v (by simpa [metaValues] using hv)
  have hks : stripL k = k := (hmv' k (by simp)).1
  have hkn : noNl k := (hmv' k (by simp)).2
  have hcs : stripL c = c := (hmv' c (by simp)).1
  have hcn : noNl c := (hmv' c (by simp)).2
  have htes : stripL te = te := (hmv' te (by simp)).1
  have hten : noNl te := (hmv' te (by simp)).2
  have htis : stripL ti = ti := (hmv' ti (by simp)).1
  have htin : noNl ti := (hmv' ti (by simp)).2
  have hfls : stripL fl = fl := (hmv' fl (by simp)).1
  have hfln : noNl fl := (hmv' fl (by simp)).2
  have htus : stripL tu = tu := (hmv' tu (by simp)).1
  have htun2 : noNl tu := (hmv' tu (by simp)).2
  have htrs : stripL tr = tr := (hmv' tr (by simp)).1
  have htrn : noNl tr := (hmv' tr (by simp)).2
  have hsplit := splitOnNl_assemble T A k c te ti fl tu tr B hTn' hAn' hkn hcn
    hten htin hfln htun2 htrn
  rw [parseInput_eq, hsplit]
  rw [bodyStart_shape]
  rw [show (T :: A :: (str "Key" ++ str ": " ++ k) ::
      (str "Capo" ++ str ": " ++ c) :: (str "Tempo" ++ str ": " ++ te) ::
      (str "Time" ++ str ": " ++ ti) :: (str "Flow" ++ str ": " ++ fl) ::
      (str "Tuning" ++ str ": " ++ tu) :: (str "TransposedKey" ++ str ": " ++ tr) ::
      [] :: splitOnNl B).drop 10 = splitOnNl B from rfl]
  rw [joinNl_splitOnNl, hlB]
  rw [parseMetaBlock_shape T A k c te ti fl tu tr (splitOnNl B) hks hcs htes htis
    hfls htus htrs]
  rw [applyDefaults_eq]
  have hkeq : (if k = [] then detect_key B else k) = k := by
    split
    · rename_i h2
      rw [hkey0' h2, h2]
    · rfl
  have hceq : (if c = [] then str "0" else c) = c := by
    split
    · rename_i h2; exact absurd h2 hcapo'
    · rfl
  have htueq : (if tu = [] then str "Standard" else tu) = tu := by
    split
    · rename_i h2; exact absurd h2 htun'
    · rfl
  rw [hkeq, hceq, htueq]
  rw [if_pos (show (T :: A :: (str "Key" ++ str ": " ++ k) ::
      (str "Capo" ++ str ": " ++ c) :: (str "Tempo" ++ str ": " ++ te) ::
      (str "Time" ++ str ": " ++ ti) :: (str "Flow" ++ str ": " ++ fl) ::
      (str "Tuning" ++ str ": " ++ tu) :: (str "TransposedKey" ++ str ": " ++ tr) ::
      [] :: splitOnNl B).length > 0 by simp)]
  rw [if_pos (show (T :: A :: (str "Key" ++ str ": " ++ k) ::
      (str "Capo" ++ str ": " ++ c) :: (str "Tempo" ++ str ": " ++ te) ::
      (str "Time" ++ str ": " ++ ti) :: (str "Flow" ++ str ": " ++ fl) ::
      (str "Tuning" ++ str ": " ++ tu) :: (str "TransposedKey" ++ str ": " ++ tr) ::
      [] :: splitOnNl B).length > 1 by simp)]
  rw [show (T :: A :: (str "Key" ++ str ": " ++ k) ::
      (str "Capo" ++ str ": " ++ c) :: (str "Tempo" ++ str ": " ++ te) ::
      (str "Time" ++ str ": " ++ ti) :: (str "Flow" ++ str ": " ++ fl) ::
      (str "Tuning" ++ str ": " ++ tu) :: (str "TransposedKey" ++ str ": " ++ tr) ::
      [] :: splitOnNl B).getD 0 [] = T from rfl]
  rw [show (T :: A :: (str "Key" ++ str ": " ++ k) ::
      (str "Capo" ++ str ": " ++ c) :: (str "Tempo" ++ str ": " ++ te) ::
      (str "Time" ++ str ": " ++ ti) :: (str "Flow" ++ str ": " ++ fl) ::
      (str "Tuning" ++ str ": " ++ tu) :: (str "TransposedKey" ++ str ": " ++ tr) ::
      [] :: splitOnNl B).getD 1 [] = A from rfl]
  rw [hTs', hAs']
  rw [resolveName_of_hdr T t _ _ hT0', resolveName_of_hdr A a _ _ hA0']

theorem rebuildCore_assembleOut (r : Rebuilt) (h : GoodOut r) (a t f : Str) :
    rebuildCore (assembleOut r) a t f = some r := by
  obtain ⟨T, A, M, B⟩ := r
  obtain ⟨k, c, te, ti, fl, tu, tr⟩ := M
  have hPI := parseInput_assembleOut T A k c te ti fl tu tr B a t f h
  obtain ⟨-, -, -, -, -, -, -, -, -, -, hflow0, -, hfound⟩ := h
  have h0 : headerCount (assembleOut ⟨T, A, ⟨k, c, te, ti, fl, tu, tr⟩, B⟩) a t f
      = 0 := by
    unfold headerCount
    rw [hPI]
    exact hfound
  rw [rebuildCore_headerless_eq _ a t f h0, hPI]
  have hfix : flowFix (⟨T, A, ⟨k, c, te, ti, fl, tu, tr⟩, B⟩ : Rebuilt).meta
      (⟨T, A, ⟨k, c, te, ti, fl, tu, tr⟩, B⟩ : Rebuilt).body =
      ⟨k, c, te, ti, fl, tu, tr⟩ :=
    flowFix_noop _ _ hflow0
  rw [hfix]

/-- C1 is refuted on the code as stated: on the concrete input below, whose
two identical Verse sections dedupe to one unique content with two
occurrences, the first run emits `Flow: V1, V1` and a numbered `Verse 1:`
header, but a second run on that output merges the registry to a single
occurrence (the rendered body holds the section only once), emitting
`Flow: V` and a bare `Verse:` header — the output is not a fixed point. -/
theorem claim_C1_counterexample :
    rebuild_formatted_tab
      "T\nA\nKey: C\nCapo: 0\nTempo: \nTime: \nFlow: \nTuning: Standard\nTransposedKey: \n\nVerse:\nx\nVerse:\nx"
      "" "" "" =
      some "T\nA\nKey: C\nCapo: 0\nTempo: \nTime: \nFlow: V1, V1\nTuning: Standard\nTransposedKey: \n\nVerse 1:\nx\n" ∧
    rebuild_formatted_tab
      "T\nA\nKey: C\nCapo: 0\nTempo: \nTime: \nFlow: V1, V1\nTuning: Standard\nTransposedKey: \n\nVerse 1:\nx\n"
      "" "" "" =
      some "T\nA\nKey: C\nCapo: 0\nTempo: \nTime: \nFlow: V\nTuning: Standard\nTransposedKey: \n\nVerse:\nx\n" ∧
    ("T\nA\nKey: C\nCapo: 0\nTempo: \nTime: \nFlow: V1, V1\nTuning: Standard\nTransposedKey: \n\nVerse 1:\nx\n" : String) ≠
      "T\nA\nKey: C\nCapo: 0\nTempo: \nTime: \nFlow: V\nTuning: Standard\nTransposedKey: \n\nVerse:\nx\n" :=
  ⟨by rfl, by rfl, by decide⟩

/-- C1 (amended): on the headerless path the transformation is idempotent —
for every input whose parsed body contains no section header, and every
newline-free, already-stripped artist/title fallback and newline-free
file-name stem, running `rebuild_formatted_tab` on its own output with the
same fallbacks reproduces that output byte for byte. -/
theorem claim_C1_amended (tab artist_fb title_fb file_base out : String)
    (hA1 : isStripped artist_fb.data) (hA2 : noNl artist_fb.data)
    (hT1 : isStripped title_fb.data) (hT2 : noNl title_fb.data)
    (hF : noNl file_base.data)
    (h0 : headerCount tab.data artist_fb.data title_fb.data file_base.data = 0)
    (hr : rebuild_formatted_tab tab artist_fb title_fb file_base = some out) :
    rebuild_formatted_tab out artist_fb title_fb file_base = some out := by
  unfold rebuild_formatted_tab at hr
  cases hcore : rebuildCore tab.data artist_fb.data title_fb.data file_base.data with
  | none =>
    rw [hcore] at hr
    simp at hr
  | some r =>
    rw [hcore] at hr
    rw [Option.map_some'] at hr
    rw [Option.some.injEq] at hr
    have hgood := rebuildCore_headerless_good tab.data artist_fb.data
      title_fb.data file_base.data hA1 hA2 hT1 hT2 hF h0 r hcore
    have h2 := rebuildCore_assembleOut r hgood artist_fb.data title_fb.data
      file_base.data
    unfold rebuild_formatted_tab
    rw [← hr]
    rw [show (String.mk (assembleOut r)).data = assembleOut r from rfl]
    rw [h2]
    rw [Option.map_some']

/-- Witness for the amended C1: a concrete headerless input, its first
output, and the theorem applied to show the second run fixes it. -/
theorem claim_C1_amended_witness :
    headerCount "just lyrics".data "".data "".data "".data = 0 ∧
    rebuild_formatted_tab "just lyrics" "" "" "" =
      some "just lyrics\nUnknown Artist\nKey: \nCapo: 0\nTempo: \nTime: \nFlow: \nTuning: Standard\nTransposedKey: \n\n" ∧
    rebuild_formatted_tab
      "just lyrics\nUnknown Artist\nKey: \nCapo: 0\nTempo: \nTime: \nFlow: \nTuning: Standard\nTransposedKey: \n\n"
      "" "" "" =
      some "just lyrics\nUnknown Artist\nKey: \nCapo: 0\nTempo: \nTime: \nFlow: \nTuning: Standard\nTransposedKey: \n\n" :=
  ⟨by rfl, by rfl,
   claim_C1_amended "just lyrics" "" "" ""
     "just lyrics\nUnknown Artist\nKey: \nCapo: 0\nTempo: \nTime: \nFlow: \nTuning: Standard\nTransposedKey: \n\n"
     (show stripL ("" : String).data = ("" : String).data by decide)
     (noNl_of_all _ (by decide))
     (show stripL ("" : String).data = ("" : String).data by decide)
     (noNl_of_all _ (by decide))
     (noNl_of_all _ (by decide))
     (by rfl) (by rfl)⟩
